import Mathlib

/-!
A shallow embedding of the mark-and-sweep garbage collector in
src/src/collector.c, together with the points where the C++ variant
src/src/collector.cpp differs, and proofs of the specification claims.

Heap objects are identified by allocation ids (natural numbers standing for
the distinct addresses returned by malloc/new); the heap is the intrusive
singly linked list of collector.c, represented as a Lean list in next-chain
order (the list head is the object the VM's root field points to).
-/

namespace GCModel

/-- MAX_STACK from collector.c line 4 / collector.cpp line 6. -/
def MAX_STACK : Nat := 256

/-- MAX_BARRIER from collector.c line 5 / collector.cpp line 7:
the initial value of maxObjects. -/
def MAX_BARRIER : Nat := 8

/-- The tagged union of collector.c lines 16-22 (ObjectType plus the union):
an object is an integer or a pair of references to other heap objects.
References are allocation ids. -/
inductive Payload where
  | int (value : Int)
  | pair (head tail : Nat)
deriving DecidableEq, Repr

/-- An object of collector.c lines 12-23: the mark bit and the payload.
The intrusive next link is represented by list order in the heap. -/
structure Object where
  marked : Bool
  payload : Payload
deriving DecidableEq, Repr

/-- The heap list, in next-chain order: the first entry is the object the
VM root field points to (the most recently allocated object). -/
abbrev Heap := List (Nat × Object)

/-- The VM of collector.c lines 25-31.  The root stack is kept in array
index order: the first list element is stack[0], push appends at the end.
nextId is the source of fresh allocation ids (distinct malloc results). -/
structure VM where
  stack : List Nat
  heap : Heap
  numObjects : Nat
  maxObjects : Nat
  nextId : Nat
deriving DecidableEq, Repr

/-- The two assert failures of collector.c lines 48-56 (and the spec's
RootOverflow / RootUnderflow).  The C code prints a diagnostic and calls
exit(1); an error value models that termination: no VM state escapes. -/
inductive GCError where
  | RootOverflow
  | RootUnderflow
deriving DecidableEq, Repr

/-- newVM from collector.c lines 40-46.  The C code leaves vm->root
uninitialized (malloc does not zero memory); the design intent, and the
C++ constructor at collector.cpp line 48, is an empty heap, which we model. -/
def newVM : VM :=
  { stack := [], heap := [], numObjects := 0, maxObjects := MAX_BARRIER, nextId := 0 }

/-- push from collector.c lines 48-51: assert stackSize < MAX_STACK, then
append.  A failed assert prints and exits; modelled as an error with no
successor state. -/
def VM.push (vm : VM) (value : Nat) : Except GCError VM :=
  if vm.stack.length < MAX_STACK then
    .ok { vm with stack := vm.stack ++ [value] }
  else
    .error .RootOverflow

/-- pop from collector.c lines 53-56: assert stackSize > 0, then remove and
return the last-pushed reference. -/
def VM.pop (vm : VM) : Except GCError (Nat × VM) :=
  match vm.stack.getLast? with
  | some v => .ok (v, { vm with stack := vm.stack.dropLast })
  | none => .error .RootUnderflow

/-- Pointer dereference: find the object with the given id.  The C code
follows the pointer directly; ids are unique for API-reachable states. -/
def lookupObj : Heap → Nat → Option Object
  | [], _ => none
  | (k, o) :: rest, a => if k = a then some o else lookupObj rest a

/-- object->marked = 1 at the given id (all entries with that key, which is
at most one in API-reachable states). -/
def setMarked : Heap → Nat → Heap
  | [], _ => []
  | (k, o) :: rest, a =>
    (k, if k = a then { o with marked := true } else o) :: setMarked rest a

/-- The number of unmarked heap entries; the termination measure of mark. -/
def unmarkedCount : Heap → Nat
  | [] => 0
  | (_, o) :: rest => (if o.marked then 0 else 1) + unmarkedCount rest

/-- mark from collector.c lines 58-68 (and VM::mark, collector.cpp lines
68-82, which is the same algorithm over the variant): return immediately if
already marked, otherwise set the mark bit and recurse into the pair
children.  The C recursion is on the object graph; fuel makes the function
structurally total, and markF_fuel_congr below shows any fuel above the
number of unmarked objects computes the same (terminating) result. -/
def markF : Nat → Heap → Nat → Heap
  | 0, h, _ => h
  | fuel + 1, h, id =>
    match lookupObj h id with
    | none => h
    | some o =>
      if o.marked then h
      else
        let h1 := setMarked h id
        match o.payload with
        | .int _ => h1
        | .pair hd tl => markF fuel (markF fuel h1 hd) tl

/-- mark with sufficient fuel: the function collector.c computes. -/
def mark (h : Heap) (id : Nat) : Heap :=
  markF (unmarkedCount h + 1) h id

/-- markAll from collector.c lines 70-74 (markSpine in collector.cpp):
mark every reference on the root stack, in index order. -/
def markAll (vm : VM) : VM :=
  { vm with heap := vm.stack.foldl mark vm.heap }

/-- The sweep loop of collector.c lines 76-89: walk the heap list once,
unlink and free unmarked objects (counting them), clear the mark bit of
marked ones.  Returns the surviving list and the number freed. -/
def sweepList : Heap → Heap × Nat
  | [] => ([], 0)
  | (i, o) :: rest =>
    let (r, k) := sweepList rest
    if o.marked then ((i, { o with marked := false }) :: r, k)
    else (r, k + 1)

/-- sweep from collector.c lines 76-89 (VM::sweep, collector.cpp lines
112-125): numObjects is decremented once per freed object. -/
def VM.sweep (vm : VM) : VM :=
  let (h, freed) := sweepList vm.heap
  { vm with heap := h, numObjects := vm.numObjects - freed }

/-- gc from collector.c lines 91-98 (VM::collect, collector.cpp lines
92-101): markAll then sweep, then maxObjects = numObjects * 2.  The printf
is output only and not modelled. -/
def VM.gc (vm : VM) : VM :=
  let vm' := (markAll vm).sweep
  { vm' with maxObjects := vm'.numObjects * 2 }

/-- The collection trigger inside newObject, collector.c line 101: collect
exactly when numObjects == maxObjects. -/
def collectIfDue (vm : VM) : VM :=
  if vm.numObjects = vm.maxObjects then vm.gc else vm

/-- The construction-and-linking half of newObject, collector.c lines
105-111: fresh object with marked = 0, linked at the head of the heap list,
numObjects incremented.  The payload is passed in because the C callers
fill the union immediately after allocation, before any other VM
operation can observe it. -/
def allocate (vm : VM) (p : Payload) : Nat × VM :=
  let id := vm.nextId
  (id, { vm with
         heap := (id, { marked := false, payload := p }) :: vm.heap,
         numObjects := vm.numObjects + 1,
         nextId := id + 1 })

/-- newObject from collector.c lines 100-112: run gc if numObjects ==
maxObjects, then construct and link the new object (never itself visible
to that gc). -/
def newObject (vm : VM) (p : Payload) : Nat × VM :=
  allocate (collectIfDue vm) p

/-- pushInt from collector.c lines 114-119: allocate an OBJ_INT (value
assigned immediately after newObject returns), push it as a root. -/
def pushInt (vm : VM) (value : Int) : Except GCError (Nat × VM) :=
  let r := newObject vm (.int value)
  match r.2.push r.1 with
  | .error e => .error e
  | .ok vm2 => .ok (r.1, vm2)

/-- pushPair from collector.c lines 121-127: newObject first (so any
triggered gc runs while both operands are still on the root stack), then
head = pop(), tail = pop(), then push the pair.  The C code links the pair
into the heap before the two pops; since pop neither reads nor writes the
heap and a pop failure exits the process, allocating after the pops with
the popped ids as payload yields the same states on every successful run,
and the gc check is kept in its source position before the pops. -/
def pushPair (vm : VM) : Except GCError (Nat × VM) :=
  match (collectIfDue vm).pop with
  | .error e => .error e
  | .ok (hd, vm2) =>
    match vm2.pop with
    | .error e => .error e
    | .ok (tl, vm3) =>
      let r := allocate vm3 (.pair hd tl)
      match r.2.push r.1 with
      | .error e => .error e
      | .ok vm5 => .ok (r.1, vm5)

/-- freeVM from collector.c lines 129-133: drop all roots, then a final
collection. -/
def freeVM (vm : VM) : VM :=
  VM.gc { vm with stack := [] }

/-! The C++ variant, collector.cpp.  Object, mark (VM::mark), markSpine,
sweep, collect, pop and the stack push are behaviorally identical to the C
functions above and are shared.  The differences are in allocation. -/

/-- VM::insert, collector.cpp lines 138-148: the trigger condition is
numObjects >= maxObjects, not equality. -/
def cppInsert (vm : VM) (p : Payload) : Nat × VM :=
  allocate (if vm.maxObjects ≤ vm.numObjects then vm.gc else vm) p

/-- VM::push(int v), collector.cpp lines 59-61: _push(insert(new Object(v))). -/
def cppPushInt (vm : VM) (value : Int) : Except GCError (Nat × VM) :=
  let r := cppInsert vm (.int value)
  match r.2.push r.1 with
  | .error e => .error e
  | .ok vm2 => .ok (r.1, vm2)

/-- The evaluation order a C++ compiler chooses for the two argument pops
in VM::push()'s new Object(pop(), pop()).  C++17 leaves this unspecified
(the two calls are indeterminately sequenced but not interleaved), so the
model is parameterized over both legal orders rather than fixing one. -/
inductive PopOrder where
  | leftFirst
  | rightFirst
deriving DecidableEq, Repr

/-- The payload the C++ pair constructor Object(head, tail) receives, given
which argument's pop executes first (p1 is the first pop, p2 the second):
under left-to-right evaluation the head argument is evaluated first, under
right-to-left the tail argument is. -/
def pairPayload (ord : PopOrder) (p1 p2 : Nat) : Payload :=
  match ord with
  | .leftFirst => .pair p1 p2
  | .rightFirst => .pair p2 p1

/-- VM::push(), collector.cpp lines 63-65: _push(insert(new Object(pop(), pop()))).
Both argument pops are evaluated before insert is called, so insert's gc
check runs with the two operands already off the root stack.  Which pop
binds to head and which to tail depends on the compiler's (unspecified)
argument evaluation order, the PopOrder parameter. -/
def cppPushPair (ord : PopOrder) (vm : VM) : Except GCError (Nat × VM) :=
  match vm.pop with
  | .error e => .error e
  | .ok (p1, vm1) =>
    match vm1.pop with
    | .error e => .error e
    | .ok (p2, vm2) =>
      let r := cppInsert vm2 (pairPayload ord p1 p2)
      match r.2.push r.1 with
      | .error e => .error e
      | .ok vm4 => .ok (r.1, vm4)

/-! External call sequences (the interface of spec section 6), used to run
both implementations on the same programs. -/

/-- One external call of spec section 6. -/
inductive Op where
  | push_int (value : Int)
  | push_pair
  | pop
  | collect
  | teardown
deriving DecidableEq, Repr

/-- One step of the C implementation. -/
def stepC (vm : VM) : Op → Except GCError VM
  | .push_int v => (pushInt vm v).map (·.2)
  | .push_pair => (pushPair vm).map (·.2)
  | .pop => (vm.pop).map (·.2)
  | .collect => .ok vm.gc
  | .teardown => .ok (freeVM vm)

/-- Run the C implementation over a call sequence. -/
def runC (vm : VM) : List Op → Except GCError VM
  | [] => .ok vm
  | op :: ops => (stepC vm op).bind (fun vm' => runC vm' ops)

/-- One step of the C++ implementation, for a fixed argument evaluation
order of the pair push. -/
def stepCpp (ord : PopOrder) (vm : VM) : Op → Except GCError VM
  | .push_int v => (cppPushInt vm v).map (·.2)
  | .push_pair => (cppPushPair ord vm).map (·.2)
  | .pop => (vm.pop).map (·.2)
  | .collect => .ok vm.gc
  | .teardown => .ok (freeVM vm)

/-- Run the C++ implementation over a call sequence. -/
def runCpp (ord : PopOrder) (vm : VM) : List Op → Except GCError VM
  | [] => .ok vm
  | op :: ops => (stepCpp ord vm op).bind (fun vm' => runCpp ord vm' ops)

/-- live_count of spec section 6: the tests read vm->numObjects directly. -/
def live_count (vm : VM) : Nat := vm.numObjects

/-! Pointwise views of a heap: mark bit, payload and membership at an id. -/

/-- The mark bit of the object at an id (false if no such object). -/
def markedB (h : Heap) (a : Nat) : Bool :=
  match lookupObj h a with
  | some o => o.marked
  | none => false

/-- The payload of the object at an id. -/
def payloadAt (h : Heap) (a : Nat) : Option Payload :=
  (lookupObj h a).map Object.payload

/-- Whether an object with the given id is in the heap. -/
def memB (h : Heap) (a : Nat) : Bool :=
  (lookupObj h a).isSome

/-! Reachability along pair references, the specification notion behind the
mark phase.  Reaches ignores mark bits; ReachesU is reachability through
unmarked objects only, the exact frontier the recursive mark explores. -/

/-- Transitive reachability from one id to another along head/tail
references (every visited object, including the endpoints, is in the heap). -/
inductive Reaches (h : Heap) : Nat → Nat → Prop where
  | refl (a : Nat) (o : Object) (ha : lookupObj h a = some o) : Reaches h a a
  | viaHead (a x y c : Nat) (o : Object) (ha : lookupObj h a = some o)
      (hp : o.payload = .pair x y) (hr : Reaches h x c) : Reaches h a c
  | viaTail (a x y c : Nat) (o : Object) (ha : lookupObj h a = some o)
      (hp : o.payload = .pair x y) (hr : Reaches h y c) : Reaches h a c

/-- Reachability along pair references through unmarked objects only. -/
inductive ReachesU (h : Heap) : Nat → Nat → Prop where
  | refl (a : Nat) (o : Object) (ha : lookupObj h a = some o)
      (hm : o.marked = false) : ReachesU h a a
  | viaHead (a x y c : Nat) (o : Object) (ha : lookupObj h a = some o)
      (hm : o.marked = false) (hp : o.payload = .pair x y) (hr : ReachesU h x c) :
      ReachesU h a c
  | viaTail (a x y c : Nat) (o : Object) (ha : lookupObj h a = some o)
      (hm : o.marked = false) (hp : o.payload = .pair x y) (hr : ReachesU h y c) :
      ReachesU h a c

/-- Every heap object is unmarked — the steady state between collections. -/
def AllUnmarked (h : Heap) : Prop := ∀ p ∈ h, (p : Nat × Object).2.marked = false

/-- Allocation ids are unique in the heap (true of all API-reachable
states, where ids model distinct malloc results). -/
def NodupKeys (h : Heap) : Prop := (h.map Prod.fst).Nodup

/-- The liveness notion of the spec: reachable from some root on the stack. -/
def RootReachable (vm : VM) (t : Nat) : Prop := ∃ r ∈ vm.stack, Reaches vm.heap r t

/-- The payload view of a heap entry, forgetting the mark bit. -/
def stripEntry (p : Nat × Object) : Nat × Payload := (p.1, p.2.payload)

/-- The invariant holding at every point outside an active collection
cycle, for every state reachable through the external interface: all mark
bits are clear, ids are unique and below the allocation counter, every
root and every Pair field references a present heap object, numObjects
counts the heap, and the root stack is within capacity. -/
structure WF (vm : VM) : Prop where
  unmarked : AllUnmarked vm.heap
  nodup : NodupKeys vm.heap
  fresh : ∀ p ∈ vm.heap, (p : Nat × Object).1 < vm.nextId
  stackMem : ∀ r ∈ vm.stack, memB vm.heap r = true
  pairMem : ∀ p ∈ vm.heap, ∀ x y, (p : Nat × Object).2.payload = .pair x y →
    memB vm.heap x = true ∧ memB vm.heap y = true
  count : vm.numObjects = vm.heap.length
  stackCap : vm.stack.length ≤ MAX_STACK

/-- markF instrumented with the number of marking expansions performed
(calls that find an unmarked object and do work, rather than returning
immediately). -/
def markFc : Nat → Heap → Nat → Heap × Nat
  | 0, h, _ => (h, 0)
  | fuel + 1, h, id =>
    match lookupObj h id with
    | none => (h, 0)
    | some o =>
      if o.marked then (h, 0)
      else
        let h1 := setMarked h id
        match o.payload with
        | .int _ => (h1, 1)
        | .pair hd tl =>
          let r1 := markFc fuel h1 hd
          let r2 := markFc fuel r1.1 tl
          (r2.1, 1 + r1.2 + r2.2)

/-- k successive integer allocations through newObject (the trigger check
included). -/
def allocIntN (vm : VM) : Nat → VM
  | 0 => vm
  | k + 1 => allocIntN (newObject vm (.int 0)).2 k

/-- k successive integer allocations with no trigger check: pure
construction and linking. -/
def allocIntNnoGC (vm : VM) : Nat → VM
  | 0 => vm
  | k + 1 => allocIntNnoGC (allocate vm (.int 0)).2 k

/-- The per-call side condition under which the C and C++ variants agree:
an integer push may start from numObjects ≤ maxObjects (where the two
trigger conditions coincide), but a pair push must not trigger at all,
because collector.c checks the trigger before popping the operands while
collector.cpp pops them first. -/
def okOp (vm : VM) : Op → Bool
  | .push_int _ => vm.numObjects ≤ vm.maxObjects
  | .push_pair => vm.numObjects < vm.maxObjects
  | _ => true

/-- okOp holding at every step along the C run. -/
def okRun (vm : VM) : List Op → Bool
  | [] => true
  | op :: ops =>
    okOp vm op &&
      (match stepC vm op with
       | .ok vm' => okRun vm' ops
       | .error _ => true)

/-- The state after push_int 1; push_int 2 from a fresh VM (the setup of
test1 in collector.c). -/
def vmTwoInts : VM :=
  { stack := [0, 1],
    heap := [(1, { marked := false, payload := .int 2 }),
             (0, { marked := false, payload := .int 1 })],
    numObjects := 2, maxObjects := MAX_BARRIER, nextId := 2 }

/-- The state of test4 in collector.c after the two cycle-creating
mutations a->tail = b and b->tail = a (the test-only back-door of spec
section 9): ids 2 and 5 are mutually referencing pairs, ids 0 and 3 are
the unrooted leaf integers the mutations disconnected. -/
def vmCycle : VM :=
  { stack := [2, 5],
    heap := [(5, { marked := false, payload := .pair 4 2 }),
             (4, { marked := false, payload := .int 4 }),
             (3, { marked := false, payload := .int 3 }),
             (2, { marked := false, payload := .pair 1 5 }),
             (1, { marked := false, payload := .int 2 }),
             (0, { marked := false, payload := .int 1 })],
    numObjects := 6, maxObjects := MAX_BARRIER, nextId := 6 }

/-- A rooted self-referencing pair. -/
def vmSelfLoop : VM :=
  { stack := [0],
    heap := [(0, { marked := false, payload := .pair 0 0 })],
    numObjects := 1, maxObjects := MAX_BARRIER, nextId := 1 }

/-- The call sequence push_int 1; pop; collect; push_int 2; pop, which
leaves the C VM with numObjects = 1 above maxObjects = 0. -/
def excessTrace : List Op := [.push_int 1, .pop, .collect, .push_int 2, .pop]

/-- The state runC reaches on excessTrace. -/
def vmExcess : VM :=
  { stack := [], heap := [(1, { marked := false, payload := .int 2 })],
    numObjects := 1, maxObjects := 0, nextId := 2 }

/-- excessTrace followed by one more allocation: the call on which the two
implementations diverge. -/
def divergeTrace : List Op :=
  [.push_int 1, .pop, .collect, .push_int 2, .pop, .push_int 3]

/-- A state just after a collection left one live object: count 1,
threshold 2. -/
def vmThreshold : VM :=
  { stack := [], heap := [(0, { marked := false, payload := .int 5 })],
    numObjects := 1, maxObjects := 2, nextId := 1 }

/-- The state produced by a pair push that triggers no collection: the two
popped roots replaced by the freshly linked pair with the given payload. -/
def pushPairResult (vm : VM) (l : List Nat) (p : Payload) : VM :=
  { vm with
    stack := l ++ [vm.nextId],
    heap := (vm.nextId, { marked := false, payload := p }) :: vm.heap,
    numObjects := vm.numObjects + 1,
    nextId := vm.nextId + 1 }

theorem memB_eq_isSome_payloadAt (h : Heap) (a : Nat) :
    memB h a = (payloadAt h a).isSome := by
  simp [memB, payloadAt]

theorem lookupObj_mem {h : Heap} {a : Nat} {o : Object}
    (hl : lookupObj h a = some o) : (a, o) ∈ h := by
  induction h with
  | nil => simp [lookupObj] at hl
  | cons p rest ih =>
    obtain ⟨k, o'⟩ := p
    by_cases hk : k = a
    · subst hk
      simp only [lookupObj, if_true, Option.some.injEq] at hl
      subst hl
      exact List.mem_cons_self _ _
    · simp only [lookupObj, if_neg hk] at hl
      exact List.mem_cons_of_mem _ (ih hl)

theorem lookupObj_setMarked (h : Heap) (i a : Nat) :
    lookupObj (setMarked h i) a =
      (lookupObj h a).map (fun o => if a = i then { o with marked := true } else o) := by
  induction h with
  | nil => rfl
  | cons p rest ih =>
    obtain ⟨k, o⟩ := p
    simp only [setMarked, lookupObj]
    by_cases hk : k = a
    · subst hk
      by_cases hi : k = i <;> simp [hi]
    · simp [hk, ih]

theorem payloadAt_setMarked (h : Heap) (i a : Nat) :
    payloadAt (setMarked h i) a = payloadAt h a := by
  simp only [payloadAt, lookupObj_setMarked]
  cases lookupObj h a with
  | none => rfl
  | some o =>
    by_cases hai : a = i <;> simp [hai]

theorem memB_setMarked (h : Heap) (i a : Nat) :
    memB (setMarked h i) a = memB h a := by
  simp [memB_eq_isSome_payloadAt, payloadAt_setMarked]

theorem markedB_setMarked (h : Heap) (i a : Nat) :
    markedB (setMarked h i) a = if a = i then memB h a else markedB h a := by
  simp only [markedB, memB, lookupObj_setMarked]
  cases lookupObj h a with
  | none =>
    by_cases hai : a = i <;> simp [hai]
  | some o =>
    by_cases hai : a = i <;> simp [hai]

theorem markedB_setMarked_mono {h : Heap} {a : Nat} (i : Nat)
    (hm : markedB h a = true) : markedB (setMarked h i) a = true := by
  rw [markedB_setMarked]
  by_cases hai : a = i
  · subst hai
    simp only [markedB] at hm
    cases hl : lookupObj h a with
    | none => rw [hl] at hm; simp at hm
    | some o => simp [memB, hl]
  · simp [hai, hm]

theorem unmarkedCount_setMarked_le (h : Heap) (i : Nat) :
    unmarkedCount (setMarked h i) ≤ unmarkedCount h := by
  induction h with
  | nil => simp [setMarked]
  | cons p rest ih =>
    obtain ⟨k, o⟩ := p
    simp only [setMarked, unmarkedCount]
    by_cases hi : k = i
    · simp only [if_pos hi]
      by_cases hm : o.marked <;> simp [hm] <;> omega
    · simp only [if_neg hi]
      omega

theorem unmarkedCount_setMarked_lt {h : Heap} {i : Nat}
    (hm : markedB h i = false) (hmem : memB h i = true) :
    unmarkedCount (setMarked h i) < unmarkedCount h := by
  induction h with
  | nil => simp [memB, lookupObj] at hmem
  | cons p rest ih =>
    obtain ⟨k, o⟩ := p
    by_cases hk : k = i
    · subst hk
      simp only [markedB, lookupObj, if_true] at hm
      simp only [setMarked, unmarkedCount, if_true]
      have := unmarkedCount_setMarked_le rest k
      simp only [hm]
      norm_num
      omega
    · simp only [markedB, memB, lookupObj, if_neg hk] at hm hmem
      have := ih hm hmem
      simp only [setMarked, if_neg hk, unmarkedCount]
      omega

theorem keys_setMarked (h : Heap) (i : Nat) :
    (setMarked h i).map Prod.fst = h.map Prod.fst := by
  induction h with
  | nil => rfl
  | cons p rest ih =>
    obtain ⟨k, o⟩ := p
    simp [setMarked, ih]

/-! Unfolding equations for markF in each of its four cases. -/

theorem markF_none {h : Heap} {i : Nat} (fuel : Nat)
    (hl : lookupObj h i = none) : markF (fuel + 1) h i = h := by
  simp [markF, hl]

theorem markF_marked {h : Heap} {i : Nat} {o : Object} (fuel : Nat)
    (hl : lookupObj h i = some o) (hm : o.marked = true) :
    markF (fuel + 1) h i = h := by
  simp [markF, hl, hm]

theorem markF_int {h : Heap} {i : Nat} {o : Object} {v : Int} (fuel : Nat)
    (hl : lookupObj h i = some o) (hm : o.marked = false) (hp : o.payload = .int v) :
    markF (fuel + 1) h i = setMarked h i := by
  simp [markF, hl, hm, hp]

theorem markF_pair {h : Heap} {i : Nat} {o : Object} {x y : Nat} (fuel : Nat)
    (hl : lookupObj h i = some o) (hm : o.marked = false) (hp : o.payload = .pair x y) :
    markF (fuel + 1) h i = markF fuel (markF fuel (setMarked h i) x) y := by
  simp [markF, hl, hm, hp]

/-! Structural lemmas about markF, each by induction on the fuel with a case
split over the four unfolding equations. -/

theorem payloadAt_markF (fuel : Nat) :
    ∀ (h : Heap) (i a : Nat), payloadAt (markF fuel h i) a = payloadAt h a := by
  induction fuel with
  | zero => intro h i a; rfl
  | succ fuel ih =>
    intro h i a
    cases hl : lookupObj h i with
    | none => rw [markF_none fuel hl]
    | some o =>
      cases hmo : o.marked with
      | true => rw [markF_marked fuel hl hmo]
      | false =>
        cases hp : o.payload with
        | int v => rw [markF_int fuel hl hmo hp, payloadAt_setMarked]
        | pair x y => rw [markF_pair fuel hl hmo hp, ih, ih, payloadAt_setMarked]

theorem markedB_markF_mono (fuel : Nat) :
    ∀ {h : Heap} {a : Nat} (i : Nat),
      markedB h a = true → markedB (markF fuel h i) a = true := by
  induction fuel with
  | zero => intro h a i hm; exact hm
  | succ fuel ih =>
    intro h a i hm
    cases hl : lookupObj h i with
    | none => rw [markF_none fuel hl]; exact hm
    | some o =>
      cases hmo : o.marked with
      | true => rw [markF_marked fuel hl hmo]; exact hm
      | false =>
        cases hp : o.payload with
        | int v => rw [markF_int fuel hl hmo hp]; exact markedB_setMarked_mono i hm
        | pair x y =>
          rw [markF_pair fuel hl hmo hp]
          exact ih _ (ih _ (markedB_setMarked_mono i hm))

theorem unmarkedCount_markF_le (fuel : Nat) :
    ∀ (h : Heap) (i : Nat), unmarkedCount (markF fuel h i) ≤ unmarkedCount h := by
  induction fuel with
  | zero => intro h i; exact le_rfl
  | succ fuel ih =>
    intro h i
    cases hl : lookupObj h i with
    | none => rw [markF_none fuel hl]
    | some o =>
      cases hmo : o.marked with
      | true => rw [markF_marked fuel hl hmo]
      | false =>
        cases hp : o.payload with
        | int v => rw [markF_int fuel hl hmo hp]; exact unmarkedCount_setMarked_le h i
        | pair x y =>
          rw [markF_pair fuel hl hmo hp]
          calc unmarkedCount (markF fuel (markF fuel (setMarked h i) x) y)
              ≤ unmarkedCount (markF fuel (setMarked h i) x) := ih _ _
            _ ≤ unmarkedCount (setMarked h i) := ih _ _
            _ ≤ unmarkedCount h := unmarkedCount_setMarked_le h i

theorem keys_markF (fuel : Nat) :
    ∀ (h : Heap) (i : Nat), (markF fuel h i).map Prod.fst = h.map Prod.fst := by
  induction fuel with
  | zero => intro h i; rfl
  | succ fuel ih =>
    intro h i
    cases hl : lookupObj h i with
    | none => rw [markF_none fuel hl]
    | some o =>
      cases hmo : o.marked with
      | true => rw [markF_marked fuel hl hmo]
      | false =>
        cases hp : o.payload with
        | int v => rw [markF_int fuel hl hmo hp]; exact keys_setMarked h i
        | pair x y => rw [markF_pair fuel hl hmo hp, ih, ih, keys_setMarked]

/-- A heap holding an unmarked object has a positive unmarked count. -/
theorem unmarkedCount_pos_of_unmarked {h : Heap} {i : Nat} {o : Object}
    (hl : lookupObj h i = some o) (hm : o.marked = false) :
    0 < unmarkedCount h := by
  induction h with
  | nil => simp [lookupObj] at hl
  | cons p rest ih =>
    obtain ⟨k, o'⟩ := p
    by_cases hk : k = i
    · simp only [lookupObj, if_pos hk, Option.some.injEq] at hl
      subst hl
      simp [unmarkedCount, hm]
    · simp only [lookupObj, if_neg hk] at hl
      have := ih hl
      simp only [unmarkedCount]
      omega

theorem markedB_of_lookup {h : Heap} {a : Nat} {o : Object}
    (hl : lookupObj h a = some o) : markedB h a = o.marked := by
  simp [markedB, hl]

theorem payloadAt_of_lookup {h : Heap} {a : Nat} {o : Object}
    (hl : lookupObj h a = some o) : payloadAt h a = some o.payload := by
  simp [payloadAt, hl]

theorem payloadAt_some_elim {h : Heap} {a : Nat} {p : Payload}
    (hp : payloadAt h a = some p) : ∃ o, lookupObj h a = some o ∧ o.payload = p := by
  cases hl : lookupObj h a with
  | none =>
    have hn : payloadAt h a = none := by simp [payloadAt, hl]
    rw [hn] at hp
    cases hp
  | some o =>
    have hs : payloadAt h a = some o.payload := by simp [payloadAt, hl]
    rw [hs] at hp
    injection hp with hpp
    exact ⟨o, rfl, hpp⟩

/-- Build a one-object ReachesU path from the pointwise views. -/
theorem reachesU_refl_of {h : Heap} {a : Nat} {p : Payload}
    (hp : payloadAt h a = some p) (hm : markedB h a = false) : ReachesU h a a := by
  obtain ⟨o, ho, _⟩ := payloadAt_some_elim hp
  exact ReachesU.refl a o ho (by rw [markedB_of_lookup ho] at hm; exact hm)

theorem reachesU_head_of {h : Heap} {a x y c : Nat}
    (hp : payloadAt h a = some (.pair x y)) (hm : markedB h a = false)
    (hr : ReachesU h x c) : ReachesU h a c := by
  obtain ⟨o, ho, hop⟩ := payloadAt_some_elim hp
  exact ReachesU.viaHead a x y c o ho (by rw [markedB_of_lookup ho] at hm; exact hm) hop hr

theorem reachesU_tail_of {h : Heap} {a x y c : Nat}
    (hp : payloadAt h a = some (.pair x y)) (hm : markedB h a = false)
    (hr : ReachesU h y c) : ReachesU h a c := by
  obtain ⟨o, ho, hop⟩ := payloadAt_some_elim hp
  exact ReachesU.viaTail a x y c o ho (by rw [markedB_of_lookup ho] at hm; exact hm) hop hr

/-- The start of a ReachesU path is an unmarked heap object. -/
theorem reachesU_start {h : Heap} {a c : Nat} (hr : ReachesU h a c) :
    (∃ p, payloadAt h a = some p) ∧ markedB h a = false := by
  cases hr with
  | refl a o ha hm => exact ⟨⟨o.payload, payloadAt_of_lookup ha⟩, by rw [markedB_of_lookup ha, hm]⟩
  | viaHead a x y c o ha hm hp hr =>
    exact ⟨⟨o.payload, payloadAt_of_lookup ha⟩, by rw [markedB_of_lookup ha, hm]⟩
  | viaTail a x y c o ha hm hp hr =>
    exact ⟨⟨o.payload, payloadAt_of_lookup ha⟩, by rw [markedB_of_lookup ha, hm]⟩

/-- The end of a ReachesU path is an unmarked heap object. -/
theorem reachesU_last {h : Heap} {a c : Nat} (hr : ReachesU h a c) :
    (∃ p, payloadAt h c = some p) ∧ markedB h c = false := by
  induction hr with
  | refl a o ha hm => exact ⟨⟨o.payload, payloadAt_of_lookup ha⟩, by rw [markedB_of_lookup ha, hm]⟩
  | viaHead a x y c o ha hm hp hr ih => exact ih
  | viaTail a x y c o ha hm hp hr ih => exact ih

/-- The end of a Reaches path is a heap object. -/
theorem reaches_last {h : Heap} {a c : Nat} (hr : Reaches h a c) :
    ∃ p, payloadAt h c = some p := by
  induction hr with
  | refl a o ha => exact ⟨o.payload, payloadAt_of_lookup ha⟩
  | viaHead a x y c o ha hp hr ih => exact ih
  | viaTail a x y c o ha hp hr ih => exact ih

theorem reaches_start {h : Heap} {a c : Nat} (hr : Reaches h a c) :
    ∃ p, payloadAt h a = some p := by
  cases hr with
  | refl a o ha => exact ⟨o.payload, payloadAt_of_lookup ha⟩
  | viaHead a x y c o ha hp hr => exact ⟨o.payload, payloadAt_of_lookup ha⟩
  | viaTail a x y c o ha hp hr => exact ⟨o.payload, payloadAt_of_lookup ha⟩

/-- Forgetting the mark condition. -/
theorem reaches_of_reachesU {h : Heap} {a c : Nat} (hr : ReachesU h a c) :
    Reaches h a c := by
  induction hr with
  | refl a o ha hm => exact Reaches.refl a o ha
  | viaHead a x y c o ha hm hp hr ih => exact Reaches.viaHead a x y c o ha hp ih
  | viaTail a x y c o ha hm hp hr ih => exact Reaches.viaTail a x y c o ha hp ih

/-- In an everywhere-unmarked heap the two reachability notions agree. -/
theorem reachesU_of_reaches {h : Heap} (hA : ∀ b, markedB h b = false)
    {a c : Nat} (hr : Reaches h a c) : ReachesU h a c := by
  induction hr with
  | refl a o ha => exact ReachesU.refl a o ha (by rw [← markedB_of_lookup ha]; exact hA a)
  | viaHead a x y c o ha hp hr ih =>
    exact ReachesU.viaHead a x y c o ha (by rw [← markedB_of_lookup ha]; exact hA a) hp ih
  | viaTail a x y c o ha hp hr ih =>
    exact ReachesU.viaTail a x y c o ha (by rw [← markedB_of_lookup ha]; exact hA a) hp ih

theorem reaches_trans {h : Heap} {a b c : Nat}
    (h1 : Reaches h a b) (h2 : Reaches h b c) : Reaches h a c := by
  induction h1 with
  | refl a o ha => exact h2
  | viaHead a x y b o ha hp hr ih => exact Reaches.viaHead a x y c o ha hp (ih h2)
  | viaTail a x y b o ha hp hr ih => exact Reaches.viaTail a x y c o ha hp (ih h2)

theorem reachesU_trans {h : Heap} {a b c : Nat}
    (h1 : ReachesU h a b) (h2 : ReachesU h b c) : ReachesU h a c := by
  induction h1 with
  | refl a o ha hm => exact h2
  | viaHead a x y b o ha hm hp hr ih => exact ReachesU.viaHead a x y c o ha hm hp (ih h2)
  | viaTail a x y b o ha hm hp hr ih => exact ReachesU.viaTail a x y c o ha hm hp (ih h2)

/-- A Reaches path only depends on the payload view of the heap. -/
theorem reaches_congr_payload {h h' : Heap}
    (hpay : ∀ b, payloadAt h' b = payloadAt h b)
    {a c : Nat} (hr : Reaches h a c) : Reaches h' a c := by
  induction hr with
  | refl a o ha =>
    obtain ⟨o', ho', _⟩ := payloadAt_some_elim ((hpay a).trans (payloadAt_of_lookup ha))
    exact Reaches.refl a o' ho'
  | viaHead a x y c o ha hp hr ih =>
    have : payloadAt h' a = some (.pair x y) := by
      rw [hpay a, payloadAt_of_lookup ha, hp]
    obtain ⟨o', ho', hop'⟩ := payloadAt_some_elim this
    exact Reaches.viaHead a x y c o' ho' hop' ih
  | viaTail a x y c o ha hp hr ih =>
    have : payloadAt h' a = some (.pair x y) := by
      rw [hpay a, payloadAt_of_lookup ha, hp]
    obtain ⟨o', ho', hop'⟩ := payloadAt_some_elim this
    exact Reaches.viaTail a x y c o' ho' hop' ih

/-- A through-unmarked path in a more-marked heap with the same payloads is
a through-unmarked path in the less-marked heap. -/
theorem reachesU_antitone {h h' : Heap}
    (hpay : ∀ b, payloadAt h' b = payloadAt h b)
    (hmk : ∀ b, markedB h b = true → markedB h' b = true)
    {a c : Nat} (hr : ReachesU h' a c) : ReachesU h a c := by
  induction hr with
  | refl a o ha hm =>
    refine reachesU_refl_of (p := o.payload) ?_ ?_
    · rw [← hpay a]; exact payloadAt_of_lookup ha
    · by_contra hcon
      have : markedB h a = true := by
        cases hmm : markedB h a with
        | true => rfl
        | false => exact absurd hmm hcon
      have := hmk a this
      rw [markedB_of_lookup ha, hm] at this
      exact Bool.false_ne_true this
  | viaHead a x y c o ha hm hp hr ih =>
    refine reachesU_head_of (y := y) ?_ ?_ ih
    · rw [← hpay a, payloadAt_of_lookup ha, hp]
    · by_contra hcon
      have : markedB h a = true := by
        cases hmm : markedB h a with
        | true => rfl
        | false => exact absurd hmm hcon
      have := hmk a this
      rw [markedB_of_lookup ha, hm] at this
      exact Bool.false_ne_true this
  | viaTail a x y c o ha hm hp hr ih =>
    refine reachesU_tail_of (x := x) ?_ ?_ ih
    · rw [← hpay a, payloadAt_of_lookup ha, hp]
    · by_contra hcon
      have : markedB h a = true := by
        cases hmm : markedB h a with
        | true => rfl
        | false => exact absurd hmm hcon
      have := hmk a this
      rw [markedB_of_lookup ha, hm] at this
      exact Bool.false_ne_true this

/-- The blocked-path argument: a through-unmarked path of h either survives
in a more-marked heap h2, or its endpoint is already marked in h2 —
provided the extra marks of h2 form a set closed under through-unmarked
reachability in h. -/
theorem reachesU_transfer {h g : Heap} {S : Nat → Prop}
    (hpay : ∀ b, payloadAt g b = payloadAt h b)
    (hmk : ∀ b, markedB g b = true ↔ (markedB h b = true ∨ S b))
    (hcl : ∀ b c, S b → ReachesU h b c → S c) :
    ∀ {a c : Nat}, ReachesU h a c → markedB g c = true ∨ ReachesU g a c := by
  intro a c hr
  induction hr with
  | refl a o ha hm =>
    cases hm2 : markedB g a with
    | true => exact Or.inl rfl
    | false =>
      refine Or.inr (reachesU_refl_of (p := o.payload) ?_ hm2)
      rw [hpay a]; exact payloadAt_of_lookup ha
  | viaHead a x y c o ha hm hp hr ih =>
    cases ih with
    | inl hmc => exact Or.inl hmc
    | inr hrc =>
      cases hm2 : markedB g a with
      | false =>
        refine Or.inr (reachesU_head_of (y := y) ?_ hm2 hrc)
        rw [hpay a, payloadAt_of_lookup ha, hp]
      | true =>
        have hSa : S a := by
          rcases (hmk a).1 hm2 with hma | hSa
          · rw [markedB_of_lookup ha, hm] at hma
            exact absurd hma Bool.false_ne_true
          · exact hSa
        have hac : ReachesU h a c := ReachesU.viaHead a x y c o ha hm hp hr
        exact Or.inl ((hmk c).2 (Or.inr (hcl a c hSa hac)))
  | viaTail a x y c o ha hm hp hr ih =>
    cases ih with
    | inl hmc => exact Or.inl hmc
    | inr hrc =>
      cases hm2 : markedB g a with
      | false =>
        refine Or.inr (reachesU_tail_of (x := x) ?_ hm2 hrc)
        rw [hpay a, payloadAt_of_lookup ha, hp]
      | true =>
        have hSa : S a := by
          rcases (hmk a).1 hm2 with hma | hSa
          · rw [markedB_of_lookup ha, hm] at hma
            exact absurd hma Bool.false_ne_true
          · exact hSa
        have hac : ReachesU h a c := ReachesU.viaTail a x y c o ha hm hp hr
        exact Or.inl ((hmk c).2 (Or.inr (hcl a c hSa hac)))

/-- Splitting a through-unmarked path at the moment the pair object i gets
marked: the path either avoids i, ends at i, or continues from one of i's
two children in the marked heap. -/
theorem reachesU_setMarked_split {h : Heap} {i x y : Nat} {o : Object}
    (ho : lookupObj h i = some o) (hp : o.payload = .pair x y) :
    ∀ {c t : Nat}, ReachesU h c t →
      ReachesU (setMarked h i) c t ∨ t = i ∨
      ReachesU (setMarked h i) x t ∨ ReachesU (setMarked h i) y t := by
  intro c t hr
  induction hr with
  | refl a o' ha hm =>
    by_cases hai : a = i
    · exact Or.inr (Or.inl hai)
    · refine Or.inl (reachesU_refl_of (p := o'.payload) ?_ ?_)
      · rw [payloadAt_setMarked, payloadAt_of_lookup ha]
      · rw [markedB_setMarked, if_neg hai, markedB_of_lookup ha, hm]
  | viaHead a x' y' c o' ha hm hp' hr ih =>
    rcases ih with hleft | hti | hx | hy
    · by_cases hai : a = i
      · subst hai
        rw [ha] at ho
        have ho' : o' = o := by injection ho
        subst ho'
        rw [hp'] at hp
        injection hp with h1 h2
        subst h1
        exact Or.inr (Or.inr (Or.inl hleft))
      · refine Or.inl (reachesU_head_of (y := y') ?_ ?_ hleft)
        · rw [payloadAt_setMarked, payloadAt_of_lookup ha, hp']
        · rw [markedB_setMarked, if_neg hai, markedB_of_lookup ha, hm]
    · exact Or.inr (Or.inl hti)
    · exact Or.inr (Or.inr (Or.inl hx))
    · exact Or.inr (Or.inr (Or.inr hy))
  | viaTail a x' y' c o' ha hm hp' hr ih =>
    rcases ih with hleft | hti | hx | hy
    · by_cases hai : a = i
      · subst hai
        rw [ha] at ho
        have ho' : o' = o := by injection ho
        subst ho'
        rw [hp'] at hp
        injection hp with h1 h2
        subst h2
        exact Or.inr (Or.inr (Or.inr hleft))
      · refine Or.inl (reachesU_tail_of (x := x') ?_ ?_ hleft)
        · rw [payloadAt_setMarked, payloadAt_of_lookup ha, hp']
        · rw [markedB_setMarked, if_neg hai, markedB_of_lookup ha, hm]
    · exact Or.inr (Or.inl hti)
    · exact Or.inr (Or.inr (Or.inl hx))
    · exact Or.inr (Or.inr (Or.inr hy))

/-- Termination of mark: any two sufficient fuels compute the same heap. -/
theorem markF_fuel_congr :
    ∀ (f1 : Nat) {f2 : Nat} (h : Heap) (i : Nat),
      unmarkedCount h < f1 → unmarkedCount h < f2 → markF f1 h i = markF f2 h i := by
  intro f1
  induction f1 with
  | zero => intro f2 h i h1 h2; omega
  | succ f1 ih =>
    intro f2 h i h1 h2
    cases f2 with
    | zero => omega
    | succ f2 =>
      cases hl : lookupObj h i with
      | none => rw [markF_none f1 hl, markF_none f2 hl]
      | some o =>
        cases hmo : o.marked with
        | true => rw [markF_marked f1 hl hmo, markF_marked f2 hl hmo]
        | false =>
          cases hp : o.payload with
          | int v => rw [markF_int f1 hl hmo hp, markF_int f2 hl hmo hp]
          | pair x y =>
            rw [markF_pair f1 hl hmo hp, markF_pair f2 hl hmo hp]
            have hmB : markedB h i = false := by simp [markedB, hl, hmo]
            have hmem : memB h i = true := by simp [memB, hl]
            have hlt := unmarkedCount_setMarked_lt hmB hmem
            have hx : markF f1 (setMarked h i) x = markF f2 (setMarked h i) x :=
              ih _ _ (by omega) (by omega)
            rw [hx]
            have hle := unmarkedCount_markF_le f2 (setMarked h i) x
            exact ih _ _ (by omega) (by omega)

/-- Correctness of the recursive mark: with sufficient fuel, markF marks
exactly the objects reachable from the start id through unmarked objects,
on top of the pre-existing marks. -/
theorem markF_marks :
    ∀ (fuel : Nat) (h : Heap) (i : Nat), unmarkedCount h < fuel →
      ∀ t, markedB (markF fuel h i) t = true ↔ (markedB h t = true ∨ ReachesU h i t) := by
  intro fuel
  induction fuel with
  | zero => intro h i hf; omega
  | succ fuel ih =>
    intro h i hf t
    cases hl : lookupObj h i with
    | none =>
      rw [markF_none fuel hl]
      constructor
      · exact Or.inl
      · rintro (hm | hr)
        · exact hm
        · obtain ⟨⟨p, hp⟩, _⟩ := reachesU_start hr
          obtain ⟨o, ho, _⟩ := payloadAt_some_elim hp
          rw [hl] at ho
          cases ho
    | some o =>
      cases hmo : o.marked with
      | true =>
        rw [markF_marked fuel hl hmo]
        constructor
        · exact Or.inl
        · rintro (hm | hr)
          · exact hm
          · obtain ⟨_, hmf⟩ := reachesU_start hr
            rw [markedB_of_lookup hl, hmo] at hmf
            cases hmf
      | false =>
        have hmB : markedB h i = false := by rw [markedB_of_lookup hl, hmo]
        have hmem : memB h i = true := by simp [memB, hl]
        have hfl : unmarkedCount (setMarked h i) < fuel := by
          have h1 := unmarkedCount_setMarked_lt hmB hmem
          omega
        have hm1 : ∀ b, markedB (setMarked h i) b = true ↔ (markedB h b = true ∨ b = i) := by
          intro b
          rw [markedB_setMarked]
          by_cases hbi : b = i
          · simp [hbi, hmem]
          · simp [hbi]
        have hpay1 : ∀ b, payloadAt (setMarked h i) b = payloadAt h b :=
          fun b => payloadAt_setMarked h i b
        have hmono1 : ∀ b, markedB h b = true → markedB (setMarked h i) b = true :=
          fun b hb => markedB_setMarked_mono i hb
        have hRii : ReachesU h i i :=
          reachesU_refl_of (p := o.payload) (payloadAt_of_lookup hl) hmB
        cases hpp : o.payload with
        | int v =>
          rw [markF_int fuel hl hmo hpp]
          constructor
          · intro hmk
            rcases (hm1 t).1 hmk with hm | hti
            · exact Or.inl hm
            · exact Or.inr (hti ▸ hRii)
          · rintro (hm | hr)
            · exact (hm1 t).2 (Or.inl hm)
            · cases hr with
              | refl a o2 ha2 hm2 => exact (hm1 i).2 (Or.inr rfl)
              | viaHead a x y c o2 ha2 hm2 hp2 hr2 =>
                rw [hl] at ha2
                injection ha2 with ho2
                rw [← ho2, hpp] at hp2
                cases hp2
              | viaTail a x y c o2 ha2 hm2 hp2 hr2 =>
                rw [hl] at ha2
                injection ha2 with ho2
                rw [← ho2, hpp] at hp2
                cases hp2
        | pair x y =>
          rw [markF_pair fuel hl hmo hpp]
          have ih1 := ih (setMarked h i) x hfl
          have hfl2 : unmarkedCount (markF fuel (setMarked h i) x) < fuel :=
            lt_of_le_of_lt (unmarkedCount_markF_le fuel (setMarked h i) x) hfl
          have ih2 := ih (markF fuel (setMarked h i) x) y hfl2
          have hpay2 : ∀ b, payloadAt (markF fuel (setMarked h i) x) b = payloadAt (setMarked h i) b :=
            fun b => payloadAt_markF fuel (setMarked h i) x b
          have hpayi : payloadAt h i = some (Payload.pair x y) := by
            rw [payloadAt_of_lookup hl, hpp]
          constructor
          · intro hmk
            rcases (ih2 t).1 hmk with hm2t | hr2
            · rcases (ih1 t).1 hm2t with hm1t | hr1
              · rcases (hm1 t).1 hm1t with hmt | hti
                · exact Or.inl hmt
                · exact Or.inr (hti ▸ hRii)
              · have hx : ReachesU h x t := reachesU_antitone hpay1 hmono1 hr1
                exact Or.inr (reachesU_head_of (y := y) hpayi hmB hx)
            · have hy1 : ReachesU (setMarked h i) y t :=
                reachesU_antitone hpay2 (fun b hb => markedB_markF_mono fuel x hb) hr2
              have hy : ReachesU h y t := reachesU_antitone hpay1 hmono1 hy1
              exact Or.inr (reachesU_tail_of (x := x) hpayi hmB hy)
          · rintro (hmt | hr)
            · exact (ih2 t).2 (Or.inl ((ih1 t).2 (Or.inl (hmono1 t hmt))))
            · rcases reachesU_setMarked_split hl hpp hr with h1t | hti | hx1 | hy1
              · obtain ⟨_, hmf⟩ := reachesU_start h1t
                rw [(show markedB (setMarked h i) i = true from (hm1 i).2 (Or.inr rfl))] at hmf
                cases hmf
              · have hmt1 : markedB (setMarked h i) t = true := (hm1 t).2 (Or.inr hti)
                exact (ih2 t).2 (Or.inl ((ih1 t).2 (Or.inl hmt1)))
              · have hmt2 : markedB (markF fuel (setMarked h i) x) t = true :=
                  (ih1 t).2 (Or.inr hx1)
                exact (ih2 t).2 (Or.inl hmt2)
              · have htr := reachesU_transfer (S := ReachesU (setMarked h i) x)
                  hpay2 ih1 (fun b c hb hbc => reachesU_trans hb hbc) hy1
                rcases htr with hm2t | hr2t
                · exact (ih2 t).2 (Or.inl hm2t)
                · exact (ih2 t).2 (Or.inr hr2t)

/-- mark computes the same marks, stated for the canonical fuel. -/
theorem mark_marks (h : Heap) (i : Nat) :
    ∀ t, markedB (mark h i) t = true ↔ (markedB h t = true ∨ ReachesU h i t) :=
  markF_marks (unmarkedCount h + 1) h i (Nat.lt_succ_self _)

theorem payloadAt_mark (h : Heap) (i a : Nat) :
    payloadAt (mark h i) a = payloadAt h a :=
  payloadAt_markF _ h i a

theorem keys_mark (h : Heap) (i : Nat) :
    (mark h i).map Prod.fst = h.map Prod.fst :=
  keys_markF _ h i

theorem payloadAt_foldl_mark :
    ∀ (roots : List Nat) (h : Heap) (a : Nat),
      payloadAt (roots.foldl mark h) a = payloadAt h a := by
  intro roots
  induction roots with
  | nil => intro h a; rfl
  | cons r rs ih =>
    intro h a
    simp only [List.foldl_cons]
    rw [ih, payloadAt_mark]

theorem keys_foldl_mark :
    ∀ (roots : List Nat) (h : Heap),
      (roots.foldl mark h).map Prod.fst = h.map Prod.fst := by
  intro roots
  induction roots with
  | nil => intro h; rfl
  | cons r rs ih =>
    intro h
    simp only [List.foldl_cons]
    rw [ih, keys_mark]

/-- Marks accumulated by folding mark over a root list: starting from a heap
whose marked set is some set S closed under reachability in the unmarked
base heap h0, the fold adds exactly the objects reachable from the roots. -/
theorem foldl_mark_marks {h0 : Heap} (hA : ∀ b, markedB h0 b = false) :
    ∀ (roots : List Nat) (h : Heap) (S : Nat → Prop),
      (∀ b, payloadAt h b = payloadAt h0 b) →
      (∀ b, markedB h b = true ↔ S b) →
      (∀ b c, S b → ReachesU h0 b c → S c) →
      ∀ t, markedB (roots.foldl mark h) t = true ↔
        (S t ∨ ∃ r ∈ roots, ReachesU h0 r t) := by
  intro roots
  induction roots with
  | nil =>
    intro h S hpay hmk hcl t
    simp only [List.foldl_nil, List.not_mem_nil]
    rw [hmk t]
    simp
  | cons r rs ih =>
    intro h S hpay hmk hcl t
    simp only [List.foldl_cons]
    have hmk' : ∀ b, markedB (mark h r) b = true ↔ (S b ∨ ReachesU h0 r b) := by
      intro b
      rw [mark_marks h r b]
      constructor
      · rintro (hm | hr)
        · exact Or.inl ((hmk b).1 hm)
        · refine Or.inr (reachesU_antitone hpay ?_ hr)
          intro c hc
          rw [hA c] at hc
          cases hc
      · rintro (hS | hr)
        · exact Or.inl ((hmk b).2 hS)
        · have htr := reachesU_transfer (h := h0) (g := h) (S := S) hpay
            (fun c => by rw [hmk c, hA c]; simp) hcl hr
          rcases htr with hm | hrr
          · exact Or.inl hm
          · exact Or.inr hrr
    have hpay' : ∀ b, payloadAt (mark h r) b = payloadAt h0 b := by
      intro b
      rw [payloadAt_mark, hpay]
    have hcl' : ∀ b c, (S b ∨ ReachesU h0 r b) → ReachesU h0 b c → (S c ∨ ReachesU h0 r c) := by
      rintro b c (hS | hrb) hbc
      · exact Or.inl (hcl b c hS hbc)
      · exact Or.inr (reachesU_trans hrb hbc)
    rw [ih (mark h r) _ hpay' hmk' hcl' t]
    constructor
    · rintro ((hS | hrt) | ⟨r', hr', hrt⟩)
      · exact Or.inl hS
      · exact Or.inr ⟨r, List.mem_cons_self r rs, hrt⟩
      · exact Or.inr ⟨r', List.mem_cons_of_mem r hr', hrt⟩
    · rintro (hS | ⟨r', hr', hrt⟩)
      · exact Or.inl (Or.inl hS)
      · rcases List.mem_cons.1 hr' with hre | hrm
        · exact Or.inl (Or.inr (hre ▸ hrt))
        · exact Or.inr ⟨r', hrm, hrt⟩

/-- The heap marked-set after markAll over an all-unmarked heap is exactly
the set of objects reachable from the root stack through (then-unmarked)
objects. -/
theorem markAll_marks (vm : VM) (hA : ∀ b, markedB vm.heap b = false) :
    ∀ t, markedB (markAll vm).heap t = true ↔ ∃ r ∈ vm.stack, ReachesU vm.heap r t := by
  intro t
  have hfold := foldl_mark_marks hA vm.stack vm.heap (fun _ => False)
    (fun b => rfl) (fun b => by rw [hA b]; simp) (fun b c hb _ => hb) t
  simpa using hfold

/-! Sweep lemmas. -/

theorem sweepList_cons (i : Nat) (o : Object) (rest : Heap) :
    sweepList ((i, o) :: rest) =
      if o.marked then
        ((i, { o with marked := false }) :: (sweepList rest).1, (sweepList rest).2)
      else ((sweepList rest).1, (sweepList rest).2 + 1) := by
  cases hsw : sweepList rest with
  | mk r k => simp [sweepList, hsw]

/-- Every object surviving a sweep has its mark bit cleared. -/
theorem sweepList_unmarked (h : Heap) :
    ∀ p ∈ (sweepList h).1, (p : Nat × Object).2.marked = false := by
  induction h with
  | nil => intro p hp; simp [sweepList] at hp
  | cons q rest ih =>
    obtain ⟨i, o⟩ := q
    intro p hp
    rw [sweepList_cons] at hp
    by_cases hm : o.marked
    · rw [if_pos hm] at hp
      rcases List.mem_cons.1 hp with hpe | hpm
      · rw [hpe]
      · exact ih p hpm
    · rw [if_neg hm] at hp
      exact ih p hp

/-- Sweep visits every heap object exactly once: the survivor count plus
the freed count equals the original heap size. -/
theorem sweepList_length (h : Heap) :
    (sweepList h).1.length + (sweepList h).2 = h.length := by
  induction h with
  | nil => simp [sweepList]
  | cons q rest ih =>
    obtain ⟨i, o⟩ := q
    rw [sweepList_cons]
    by_cases hm : o.marked
    · rw [if_pos hm]
      simp only [List.length_cons]
      omega
    · rw [if_neg hm]
      simp only [List.length_cons]
      omega

theorem sweepList_keys_sublist (h : Heap) :
    ((sweepList h).1.map Prod.fst).Sublist (h.map Prod.fst) := by
  induction h with
  | nil => simp [sweepList]
  | cons q rest ih =>
    obtain ⟨i, o⟩ := q
    rw [sweepList_cons]
    by_cases hm : o.marked
    · rw [if_pos hm]
      simpa using List.Sublist.cons₂ i ih
    · rw [if_neg hm]
      simpa using List.Sublist.cons i ih

theorem lookupObj_eq_none_iff (h : Heap) (a : Nat) :
    lookupObj h a = none ↔ a ∉ h.map Prod.fst := by
  induction h with
  | nil => simp [lookupObj]
  | cons q rest ih =>
    obtain ⟨k, o⟩ := q
    by_cases hk : k = a
    · subst hk
      simp [lookupObj]
    · simp only [lookupObj, if_neg hk, List.map_cons, List.mem_cons]
      rw [ih]
      constructor
      · intro hnm hor
        rcases hor with hka | hmm
        · exact hk hka.symm
        · exact hnm hmm
      · intro hni hmm
        exact hni (Or.inr hmm)

theorem lookupObj_sweepList_none {h : Heap} {a : Nat}
    (hl : lookupObj h a = none) : lookupObj (sweepList h).1 a = none := by
  rw [lookupObj_eq_none_iff] at hl ⊢
  intro hmem
  exact hl ((sweepList_keys_sublist h).mem hmem)

/-- Pointwise description of sweep for duplicate-free heaps: a marked object
survives with its mark cleared, an unmarked object is removed. -/
theorem lookupObj_sweepList {h : Heap} (hnd : (h.map Prod.fst).Nodup) (a : Nat) :
    lookupObj (sweepList h).1 a =
      match lookupObj h a with
      | some o => if o.marked then some { o with marked := false } else none
      | none => none := by
  induction h with
  | nil => simp [sweepList, lookupObj]
  | cons q rest ih =>
    obtain ⟨k, o⟩ := q
    simp only [List.map_cons, List.nodup_cons] at hnd
    obtain ⟨hknot, hndr⟩ := hnd
    rw [sweepList_cons]
    by_cases hk : k = a
    · subst hk
      have hrest : lookupObj rest k = none := by
        rw [lookupObj_eq_none_iff]
        exact hknot
      by_cases hm : o.marked
      · rw [if_pos hm]
        simp [lookupObj, hm]
      · rw [if_neg hm]
        have : lookupObj (sweepList rest).1 k = none := lookupObj_sweepList_none hrest
        rw [this]
        simp [lookupObj, hm]
    · by_cases hm : o.marked
      · rw [if_pos hm]
        simp only [lookupObj, if_neg hk]
        exact ih hndr
      · rw [if_neg hm]
        simp only [lookupObj, if_neg hk]
        exact ih hndr

/-- If every entry is marked, sweep keeps all of them (clearing marks) and
frees nothing. -/
theorem sweepList_all_marked {h : Heap}
    (hM : ∀ p ∈ h, (p : Nat × Object).2.marked = true) :
    (sweepList h).1 = h.map (fun p => (p.1, { p.2 with marked := false })) ∧
      (sweepList h).2 = 0 := by
  induction h with
  | nil => simp [sweepList]
  | cons q rest ih =>
    obtain ⟨i, o⟩ := q
    have hio : o.marked = true := hM (i, o) (List.mem_cons_self _ _)
    have hrest := ih (fun p hp => hM p (List.mem_cons_of_mem _ hp))
    rw [sweepList_cons, if_pos hio]
    simp only [List.map_cons]
    exact ⟨by rw [hrest.1], hrest.2⟩

/-! The collection theorem: a gc keeps exactly the root-reachable objects. -/

theorem markedB_false_of_allUnmarked {h : Heap} (hA : AllUnmarked h) (b : Nat) :
    markedB h b = false := by
  cases hl : lookupObj h b with
  | none => simp [markedB, hl]
  | some o => rw [markedB_of_lookup hl]; exact hA (b, o) (lookupObj_mem hl)

theorem lookupObj_of_mem_nodup {h : Heap} (hnd : NodupKeys h) {i : Nat} {o : Object}
    (hm : (i, o) ∈ h) : lookupObj h i = some o := by
  induction h with
  | nil => simp at hm
  | cons q rest ih =>
    obtain ⟨k, o'⟩ := q
    unfold NodupKeys at hnd
    simp only [List.map_cons, List.nodup_cons] at hnd
    obtain ⟨hknot, hndr⟩ := hnd
    rcases List.mem_cons.1 hm with hme | hmm
    · injection hme with h1 h2
      subst h1
      subst h2
      simp [lookupObj]
    · have hki : k ≠ i := by
        intro hk
        subst hk
        exact hknot (List.mem_map_of_mem Prod.fst hmm)
      simp only [lookupObj, if_neg hki]
      exact ih hndr hmm

theorem vm_eq_of_fields {a b : VM} (h1 : a.stack = b.stack) (h2 : a.heap = b.heap)
    (h3 : a.numObjects = b.numObjects) (h4 : a.maxObjects = b.maxObjects)
    (h5 : a.nextId = b.nextId) : a = b := by
  cases a; cases b; simp_all

theorem gc_stack (vm : VM) : (VM.gc vm).stack = vm.stack := rfl

theorem gc_nextId (vm : VM) : (VM.gc vm).nextId = vm.nextId := rfl

theorem gc_heap_eq (vm : VM) : (VM.gc vm).heap = (sweepList (markAll vm).heap).1 := rfl

theorem gc_numObjects_eq (vm : VM) :
    (VM.gc vm).numObjects = vm.numObjects - (sweepList (markAll vm).heap).2 := rfl

theorem gc_maxObjects (vm : VM) :
    (VM.gc vm).maxObjects = (VM.gc vm).numObjects * 2 := rfl

/-- The markAll marked-set, phrased with plain reachability from the roots. -/
theorem markAll_marks_reach (vm : VM) (hA : AllUnmarked vm.heap) (t : Nat) :
    markedB (markAll vm).heap t = true ↔ RootReachable vm t := by
  have hA' := markedB_false_of_allUnmarked hA
  rw [markAll_marks vm hA' t]
  constructor
  · rintro ⟨r, hr, hru⟩
    exact ⟨r, hr, reaches_of_reachesU hru⟩
  · rintro ⟨r, hr, hre⟩
    exact ⟨r, hr, reachesU_of_reaches hA' hre⟩

theorem nodup_markAll (vm : VM) (hnd : NodupKeys vm.heap) :
    NodupKeys (markAll vm).heap := by
  unfold NodupKeys at hnd ⊢
  rw [show (markAll vm).heap = vm.stack.foldl mark vm.heap from rfl, keys_foldl_mark]
  exact hnd

/-- Survival: the object at a root-reachable id comes out of gc unchanged. -/
theorem gc_lookup_reachable (vm : VM) (hA : AllUnmarked vm.heap) (hnd : NodupKeys vm.heap)
    {i : Nat} (hR : RootReachable vm i) :
    lookupObj (VM.gc vm).heap i = lookupObj vm.heap i := by
  obtain ⟨r, hr, hre⟩ := hR
  obtain ⟨p, hp⟩ := reaches_last hre
  obtain ⟨o, ho, hop⟩ := payloadAt_some_elim hp
  have hpayM : payloadAt (markAll vm).heap i = some p := by
    rw [show (markAll vm).heap = vm.stack.foldl mark vm.heap from rfl, payloadAt_foldl_mark]
    exact hp
  obtain ⟨o2, ho2, hop2⟩ := payloadAt_some_elim hpayM
  have hm2 : o2.marked = true := by
    have hmkM : markedB (markAll vm).heap i = true :=
      (markAll_marks_reach vm hA i).2 ⟨r, hr, hre⟩
    rw [markedB_of_lookup ho2] at hmkM
    exact hmkM
  rw [gc_heap_eq, lookupObj_sweepList (nodup_markAll vm hnd) i, ho2, ho]
  have hmo : o.marked = false := hA (i, o) (lookupObj_mem ho)
  cases o2 with
  | mk m2 p2 =>
    cases o with
    | mk m1 p1 =>
      simp only at hop hop2 hmo hm2
      subst hm2
      simp [hop, hop2, hmo]

/-- Reclamation: an id not reachable from the roots is absent after gc. -/
theorem gc_lookup_unreachable (vm : VM) (hA : AllUnmarked vm.heap) (hnd : NodupKeys vm.heap)
    {i : Nat} (hNR : ¬ RootReachable vm i) :
    lookupObj (VM.gc vm).heap i = none := by
  rw [gc_heap_eq, lookupObj_sweepList (nodup_markAll vm hnd) i]
  cases hl2 : lookupObj (markAll vm).heap i with
  | none => rfl
  | some o2 =>
    have hm2 : o2.marked = false := by
      cases hmm : o2.marked with
      | false => rfl
      | true =>
        exfalso
        apply hNR
        apply (markAll_marks_reach vm hA i).1
        rw [markedB_of_lookup hl2, hmm]
    simp [hm2]

/-- Heap membership after gc: present before and root-reachable. -/
theorem gc_memB (vm : VM) (hA : AllUnmarked vm.heap) (hnd : NodupKeys vm.heap) (i : Nat) :
    memB (VM.gc vm).heap i = true ↔ (memB vm.heap i = true ∧ RootReachable vm i) := by
  by_cases hR : RootReachable vm i
  · rw [show memB (VM.gc vm).heap i = memB vm.heap i from by
      rw [memB, memB, gc_lookup_reachable vm hA hnd hR]]
    simp [hR]
  · rw [show memB (VM.gc vm).heap i = false from by
      rw [memB, gc_lookup_unreachable vm hA hnd hR]; rfl]
    simp [hR]

/-- Every survivor of gc is unmarked: the heap is all-unmarked again. -/
theorem allUnmarked_gc (vm : VM) : AllUnmarked (VM.gc vm).heap := by
  intro p hp
  rw [gc_heap_eq] at hp
  exact sweepList_unmarked (markAll vm).heap p hp

theorem nodupKeys_gc (vm : VM) (hnd : NodupKeys vm.heap) : NodupKeys (VM.gc vm).heap := by
  unfold NodupKeys
  rw [gc_heap_eq]
  exact (nodup_markAll vm hnd).sublist (sweepList_keys_sublist (markAll vm).heap)

/-- With numObjects tracking the heap size, gc keeps it in sync. -/
theorem gc_numObjects_length (vm : VM) (hc : vm.numObjects = vm.heap.length) :
    (VM.gc vm).numObjects = (VM.gc vm).heap.length := by
  have hlen := sweepList_length (markAll vm).heap
  have hkeys : (markAll vm).heap.length = vm.heap.length := by
    have hk := keys_foldl_mark vm.stack vm.heap
    have h1 : ((markAll vm).heap.map Prod.fst).length = ((vm.heap).map Prod.fst).length := by
      rw [show (markAll vm).heap = vm.stack.foldl mark vm.heap from rfl, hk]
    simpa using h1
  rw [gc_numObjects_eq, gc_heap_eq, hc]
  omega

/-! gc is idempotent on all-unmarked heaps: after a collection, a second
collection with no intervening mutation changes nothing. -/

theorem stripMap_setMarked (h : Heap) (i : Nat) :
    (setMarked h i).map stripEntry = h.map stripEntry := by
  induction h with
  | nil => rfl
  | cons q rest ih =>
    obtain ⟨k, o⟩ := q
    by_cases hk : k = i <;> simp [setMarked, hk, stripEntry, ih]

theorem stripMap_markF (fuel : Nat) :
    ∀ (h : Heap) (i : Nat), (markF fuel h i).map stripEntry = h.map stripEntry := by
  induction fuel with
  | zero => intro h i; rfl
  | succ fuel ih =>
    intro h i
    cases hl : lookupObj h i with
    | none => rw [markF_none fuel hl]
    | some o =>
      cases hmo : o.marked with
      | true => rw [markF_marked fuel hl hmo]
      | false =>
        cases hp : o.payload with
        | int v => rw [markF_int fuel hl hmo hp, stripMap_setMarked]
        | pair x y => rw [markF_pair fuel hl hmo hp, ih, ih, stripMap_setMarked]

theorem stripMap_foldl_mark :
    ∀ (roots : List Nat) (h : Heap),
      (roots.foldl mark h).map stripEntry = h.map stripEntry := by
  intro roots
  induction roots with
  | nil => intro h; rfl
  | cons r rs ih =>
    intro h
    simp only [List.foldl_cons]
    rw [ih, mark, stripMap_markF]

/-- Clearing the mark bits of an all-unmarked heap is the identity. -/
theorem map_clear_of_allUnmarked {h : Heap} (hA : AllUnmarked h) :
    h.map (fun p => (p.1, { p.2 with marked := false })) = h := by
  induction h with
  | nil => rfl
  | cons q rest ih =>
    obtain ⟨i, o⟩ := q
    have hio : o.marked = false := hA (i, o) (List.mem_cons_self _ _)
    have hrest := ih (fun p hp => hA p (List.mem_cons_of_mem _ hp))
    simp only [List.map_cons, hrest, List.cons.injEq, and_true]
    cases o with
    | mk m p => simp only at hio; rw [hio]

/-- A path stays valid in any heap that agrees with the original on every
node the start can reach. -/
theorem reaches_transfer_lookup {h h' : Heap} :
    ∀ {x t : Nat}, Reaches h x t →
      (∀ j, Reaches h x j → lookupObj h' j = lookupObj h j) → Reaches h' x t := by
  intro x t hr
  induction hr with
  | refl a o ha =>
    intro hp
    exact Reaches.refl a o (by rw [hp a (Reaches.refl a o ha)]; exact ha)
  | viaHead a x' y' c o ha hpay hr ih =>
    intro hp
    refine Reaches.viaHead a x' y' c o ?_ hpay (ih ?_)
    · rw [hp a (Reaches.refl a o ha)]; exact ha
    · intro j hj
      exact hp j (Reaches.viaHead a x' y' j o ha hpay hj)
  | viaTail a x' y' c o ha hpay hr ih =>
    intro hp
    refine Reaches.viaTail a x' y' c o ?_ hpay (ih ?_)
    · rw [hp a (Reaches.refl a o ha)]; exact ha
    · intro j hj
      exact hp j (Reaches.viaTail a x' y' j o ha hpay hj)

/-- A root-reachable node stays root-reachable after gc. -/
theorem rootReachable_gc (vm : VM) (hA : AllUnmarked vm.heap) (hnd : NodupKeys vm.heap)
    {i : Nat} (hR : RootReachable vm i) : RootReachable (VM.gc vm) i := by
  obtain ⟨r, hr, hre⟩ := hR
  refine ⟨r, by rw [gc_stack]; exact hr, ?_⟩
  refine reaches_transfer_lookup hre ?_
  intro j hj
  exact gc_lookup_reachable vm hA hnd ⟨r, hr, hj⟩

/-- gc is idempotent on heaps in the between-collections steady state. -/
theorem gc_gc (vm : VM) (hA : AllUnmarked vm.heap) (hnd : NodupKeys vm.heap) :
    VM.gc (VM.gc vm) = VM.gc vm := by
  have hA1 : AllUnmarked (VM.gc vm).heap := allUnmarked_gc vm
  have hnd1 : NodupKeys (VM.gc vm).heap := nodupKeys_gc vm hnd
  have hndM : NodupKeys (markAll (VM.gc vm)).heap := nodup_markAll _ hnd1
  have hallM : ∀ p ∈ (markAll (VM.gc vm)).heap, (p : Nat × Object).2.marked = true := by
    rintro ⟨i, o2⟩ hp
    have hl2 : lookupObj (markAll (VM.gc vm)).heap i = some o2 :=
      lookupObj_of_mem_nodup hndM hp
    have hmem1 : memB (VM.gc vm).heap i = true := by
      have hpay := payloadAt_foldl_mark (VM.gc vm).stack (VM.gc vm).heap i
      rw [memB_eq_isSome_payloadAt]
      rw [show (markAll (VM.gc vm)).heap = (VM.gc vm).stack.foldl mark (VM.gc vm).heap from rfl]
        at hl2
      rw [← hpay, payloadAt_of_lookup hl2]
      rfl
    have hRvm : RootReachable vm i := ((gc_memB vm hA hnd i).1 hmem1).2
    have hR1 : RootReachable (VM.gc vm) i := rootReachable_gc vm hA hnd hRvm
    have := (markAll_marks_reach (VM.gc vm) hA1 i).2 hR1
    rw [markedB_of_lookup hl2] at this
    exact this
  obtain ⟨hsw1, hsw2⟩ := sweepList_all_marked hallM
  have hheap : (VM.gc (VM.gc vm)).heap = (VM.gc vm).heap := by
    rw [gc_heap_eq (VM.gc vm), hsw1]
    have hstrip : (markAll (VM.gc vm)).heap.map stripEntry = (VM.gc vm).heap.map stripEntry :=
      stripMap_foldl_mark (VM.gc vm).stack (VM.gc vm).heap
    have hclear : ∀ (l1 l2 : Heap), l1.map stripEntry = l2.map stripEntry →
        l1.map (fun p => (p.1, { p.2 with marked := false })) =
          l2.map (fun p => (p.1, { p.2 with marked := false })) := by
      intro l1 l2 hl
      have h1 : l1.map (fun p => (p.1, { p.2 with marked := false })) =
          (l1.map stripEntry).map (fun q => (q.1, { marked := false, payload := q.2 })) := by
        rw [List.map_map]; rfl
      have h2 : l2.map (fun p => (p.1, { p.2 with marked := false })) =
          (l2.map stripEntry).map (fun q => (q.1, { marked := false, payload := q.2 })) := by
        rw [List.map_map]; rfl
      rw [h1, h2, hl]
    rw [hclear _ _ hstrip, map_clear_of_allUnmarked hA1]
  have hnum : (VM.gc (VM.gc vm)).numObjects = (VM.gc vm).numObjects := by
    rw [gc_numObjects_eq (VM.gc vm), hsw2]
    omega
  refine vm_eq_of_fields (gc_stack _) hheap hnum ?_ (gc_nextId _)
  rw [gc_maxObjects (VM.gc vm), hnum, gc_maxObjects vm]

/-! The state invariant of API-reachable VMs and its preservation. -/

theorem memB_iff_mem_keys (h : Heap) (a : Nat) :
    memB h a = true ↔ a ∈ h.map Prod.fst := by
  rw [memB, Option.isSome_iff_ne_none]
  constructor
  · intro hne
    by_contra hnm
    exact hne ((lookupObj_eq_none_iff h a).2 hnm)
  · intro hmem hnone
    exact ((lookupObj_eq_none_iff h a).1 hnone) hmem

theorem memB_cons_mono {h : Heap} {a : Nat} (k : Nat) (o : Object)
    (hm : memB h a = true) : memB ((k, o) :: h) a = true := by
  rw [memB_iff_mem_keys] at hm ⊢
  exact List.mem_cons_of_mem _ hm

theorem memB_of_mem {h : Heap} {i : Nat} {o : Object} (hm : (i, o) ∈ h) :
    memB h i = true := by
  rw [memB_iff_mem_keys]
  exact List.mem_map_of_mem Prod.fst hm

theorem wf_newVM : WF newVM := by
  constructor <;> simp [newVM, AllUnmarked, NodupKeys, MAX_STACK]

/-- A stack member is root-reachable. -/
theorem rootReachable_of_stackMem {vm : VM} {r : Nat}
    (hr : r ∈ vm.stack) (hm : memB vm.heap r = true) : RootReachable vm r := by
  rw [memB] at hm
  cases hl : lookupObj vm.heap r with
  | none => rw [hl] at hm; cases hm
  | some o => exact ⟨r, hr, Reaches.refl r o hl⟩

/-- gc preserves the invariant. -/
theorem wf_gc {vm : VM} (hwf : WF vm) : WF (VM.gc vm) := by
  have hA := hwf.unmarked
  have hnd := hwf.nodup
  have hkeys_sub : ((VM.gc vm).heap.map Prod.fst).Sublist (vm.heap.map Prod.fst) := by
    rw [gc_heap_eq]
    have h1 := sweepList_keys_sublist (markAll vm).heap
    rw [show (markAll vm).heap = vm.stack.foldl mark vm.heap from rfl, keys_foldl_mark] at h1
    exact h1
  refine ⟨allUnmarked_gc vm, nodupKeys_gc vm hnd, ?_, ?_, ?_,
    gc_numObjects_length vm hwf.count, ?_⟩
  · rintro ⟨i, o⟩ hp
    have hk : i ∈ vm.heap.map Prod.fst :=
      hkeys_sub.subset (List.mem_map_of_mem Prod.fst hp)
    obtain ⟨q, hq, hqi⟩ := List.mem_map.1 hk
    rw [gc_nextId]
    have := hwf.fresh q hq
    omega
  · intro r hr
    rw [gc_stack] at hr
    have hR : RootReachable vm r := rootReachable_of_stackMem hr (hwf.stackMem r hr)
    exact (gc_memB vm hA hnd r).2 ⟨hwf.stackMem r hr, hR⟩
  · rintro ⟨i, o⟩ hp x y hpxy
    have hl : lookupObj (VM.gc vm).heap i = some o :=
      lookupObj_of_mem_nodup (nodupKeys_gc vm hnd) hp
    have hmem : memB (VM.gc vm).heap i = true := memB_of_mem hp
    obtain ⟨hmemv, hR⟩ := (gc_memB vm hA hnd i).1 hmem
    have hlv : lookupObj vm.heap i = some o := by
      rw [← gc_lookup_reachable vm hA hnd hR]
      exact hl
    obtain ⟨hx, hy⟩ := hwf.pairMem (i, o) (lookupObj_mem hlv) x y hpxy
    obtain ⟨r, hrs, hre⟩ := hR
    have hox : ∃ ox, lookupObj vm.heap x = some ox := by
      rw [memB, Option.isSome_iff_exists] at hx
      exact hx
    have hoy : ∃ oy, lookupObj vm.heap y = some oy := by
      rw [memB, Option.isSome_iff_exists] at hy
      exact hy
    obtain ⟨ox, hox⟩ := hox
    obtain ⟨oy, hoy⟩ := hoy
    have hRx : RootReachable vm x :=
      ⟨r, hrs, reaches_trans hre (Reaches.viaHead i x y x o hlv hpxy (Reaches.refl x ox hox))⟩
    have hRy : RootReachable vm y :=
      ⟨r, hrs, reaches_trans hre (Reaches.viaTail i x y y o hlv hpxy (Reaches.refl y oy hoy))⟩
    exact ⟨(gc_memB vm hA hnd x).2 ⟨hx, hRx⟩, (gc_memB vm hA hnd y).2 ⟨hy, hRy⟩⟩
  · rw [gc_stack]
    exact hwf.stackCap

/-- collectIfDue preserves the invariant, the stack, and heap membership of
stack members. -/
theorem wf_collectIfDue {vm : VM} (hwf : WF vm) : WF (collectIfDue vm) := by
  unfold collectIfDue
  by_cases hc : vm.numObjects = vm.maxObjects
  · rw [if_pos hc]; exact wf_gc hwf
  · rw [if_neg hc]; exact hwf

theorem collectIfDue_stack (vm : VM) : (collectIfDue vm).stack = vm.stack := by
  unfold collectIfDue
  by_cases hc : vm.numObjects = vm.maxObjects
  · rw [if_pos hc]; exact gc_stack vm
  · rw [if_neg hc]

/-- Stack members survive a due collection: the operands of pushPair are
still present after the trigger check runs. -/
theorem collectIfDue_stackMem {vm : VM} (hwf : WF vm) {r : Nat} (hr : r ∈ vm.stack) :
    memB (collectIfDue vm).heap r = true := by
  unfold collectIfDue
  by_cases hc : vm.numObjects = vm.maxObjects
  · rw [if_pos hc]
    exact (gc_memB vm hwf.unmarked hwf.nodup r).2
      ⟨hwf.stackMem r hr, rootReachable_of_stackMem hr (hwf.stackMem r hr)⟩
  · rw [if_neg hc]
    exact hwf.stackMem r hr

/-- allocate preserves the invariant when the payload's references (if a
pair) are present in the heap. -/
theorem wf_allocate {vm : VM} (hwf : WF vm) (p : Payload)
    (hp : ∀ x y, p = .pair x y → memB vm.heap x = true ∧ memB vm.heap y = true) :
    WF (allocate vm p).2 := by
  have hfreshk : vm.nextId ∉ vm.heap.map Prod.fst := by
    intro hk
    obtain ⟨q, hq, hqi⟩ := List.mem_map.1 hk
    have := hwf.fresh q hq
    omega
  refine ⟨?_, ?_, ?_, ?_, ?_, ?_, ?_⟩
  · rintro q hq
    rcases List.mem_cons.1 hq with hqe | hqm
    · rw [hqe]
    · exact hwf.unmarked q hqm
  · unfold NodupKeys
    simp only [allocate, List.map_cons, List.nodup_cons]
    exact ⟨hfreshk, hwf.nodup⟩
  · rintro q hq
    simp only [allocate] at hq
    rcases List.mem_cons.1 hq with hqe | hqm
    · rw [hqe]
      simp [allocate]
    · have := hwf.fresh q hqm
      simp only [allocate]
      omega
  · intro r hr
    simp only [allocate] at hr ⊢
    exact memB_cons_mono _ _ (hwf.stackMem r hr)
  · rintro q hq x y hqxy
    simp only [allocate] at hq ⊢
    rcases List.mem_cons.1 hq with hqe | hqm
    · rw [hqe] at hqxy
      simp only at hqxy
      obtain ⟨hx, hy⟩ := hp x y hqxy
      exact ⟨memB_cons_mono _ _ hx, memB_cons_mono _ _ hy⟩
    · obtain ⟨hx, hy⟩ := hwf.pairMem q hqm x y hqxy
      exact ⟨memB_cons_mono _ _ hx, memB_cons_mono _ _ hy⟩
  · simp only [allocate, List.length_cons]
    rw [hwf.count]
  · simp only [allocate]
    exact hwf.stackCap

theorem allocate_stack (vm : VM) (p : Payload) : (allocate vm p).2.stack = vm.stack := rfl

/-- push preserves the invariant when the pushed id is a heap member. -/
theorem wf_push {vm vm' : VM} {v : Nat} (hwf : WF vm) (hv : memB vm.heap v = true)
    (hok : vm.push v = .ok vm') : WF vm' := by
  unfold VM.push at hok
  by_cases hlen : vm.stack.length < MAX_STACK
  · rw [if_pos hlen] at hok
    injection hok with hok
    subst hok
    refine ⟨hwf.unmarked, hwf.nodup, hwf.fresh, ?_, hwf.pairMem, hwf.count, ?_⟩
    · intro r hr
      rcases List.mem_append.1 hr with hrm | hrl
      · exact hwf.stackMem r hrm
      · rw [List.mem_singleton.1 hrl]
        exact hv
    · simp only [List.length_append, List.length_singleton]
      omega
  · rw [if_neg hlen] at hok
    cases hok

/-- pop preserves the invariant and leaves the heap untouched. -/
theorem wf_pop {vm vm' : VM} {v : Nat} (hwf : WF vm)
    (hok : vm.pop = .ok (v, vm')) : WF vm' ∧ vm'.heap = vm.heap ∧ v ∈ vm.stack := by
  unfold VM.pop at hok
  cases hlast : vm.stack.getLast? with
  | none => rw [hlast] at hok; cases hok
  | some w =>
    rw [hlast] at hok
    injection hok with hok
    injection hok with hv hvm
    subst hv
    subst hvm
    refine ⟨⟨hwf.unmarked, hwf.nodup, hwf.fresh, ?_, hwf.pairMem, hwf.count, ?_⟩,
      rfl, List.mem_of_mem_getLast? hlast⟩
    · intro r hr
      exact hwf.stackMem r (List.dropLast_subset vm.stack hr)
    · have h1 : vm.stack.dropLast.length ≤ vm.stack.length := by
        rw [List.length_dropLast]
        omega
      exact le_trans h1 hwf.stackCap

/-- The freshly allocated object is a member of the new heap. -/
theorem memB_allocate (vm : VM) (p : Payload) :
    memB (allocate vm p).2.heap (allocate vm p).1 = true := by
  simp [allocate, memB, lookupObj]

/-- pushInt preserves the invariant. -/
theorem wf_pushInt {vm : VM} {v : Int} {id : Nat} {vm' : VM} (hwf : WF vm)
    (hok : pushInt vm v = .ok (id, vm')) : WF vm' := by
  simp only [pushInt, newObject] at hok
  have hwf2 : WF (allocate (collectIfDue vm) (.int v)).2 :=
    wf_allocate (wf_collectIfDue hwf) _ (by intro x y hxy; cases hxy)
  split at hok
  · cases hok
  · rename_i vmp heq
    injection hok with hok
    injection hok with h1 h2
    subst h2
    exact wf_push hwf2 (memB_allocate _ _) heq

/-- pushPair preserves the invariant. -/
theorem wf_pushPair {vm : VM} {id : Nat} {vm' : VM} (hwf : WF vm)
    (hok : pushPair vm = .ok (id, vm')) : WF vm' := by
  simp only [pushPair] at hok
  have hwf1 : WF (collectIfDue vm) := wf_collectIfDue hwf
  split at hok
  · cases hok
  · rename_i hd vm2 hpop1
    obtain ⟨hwf2, hheap2, hhd⟩ := wf_pop hwf1 hpop1
    split at hok
    · cases hok
    · rename_i tl vm3 hpop2
      obtain ⟨hwf3, hheap3, htl⟩ := wf_pop hwf2 hpop2
      have hmemhd : memB vm3.heap hd = true := by
        rw [hheap3, hheap2]
        exact hwf1.stackMem hd hhd
      have hmemtl : memB vm3.heap tl = true := by
        rw [hheap3]
        exact hwf2.stackMem tl htl
      have hwf4 : WF (allocate vm3 (.pair hd tl)).2 := by
        refine wf_allocate hwf3 _ ?_
        intro x y hxy
        injection hxy with hx hy
        subst hx
        subst hy
        exact ⟨hmemhd, hmemtl⟩
      split at hok
      · cases hok
      · rename_i vm5 heq
        injection hok with hok
        injection hok with h1 h2
        subst h2
        exact wf_push hwf4 (memB_allocate _ _) heq

/-- Full characterization of a successful pushPair on a stack with at least
two entries (a on top): the topmost root becomes the head, the one below it
the tail, both leave the stack, and the new pair is pushed and returned. -/
theorem pushPair_spec {vm : VM} {l : List Nat} {a b : Nat}
    (hst : vm.stack = l ++ [b, a]) (hcap : vm.stack.length ≤ MAX_STACK) :
    ∃ id vm', pushPair vm = .ok (id, vm') ∧
      id = (collectIfDue vm).nextId ∧
      vm'.stack = l ++ [id] ∧
      vm'.heap = (id, { marked := false, payload := .pair a b }) :: (collectIfDue vm).heap ∧
      lookupObj vm'.heap id = some { marked := false, payload := .pair a b } := by
  have hst2 : vm.stack = (l ++ [b]) ++ [a] := by
    rw [hst]
    simp
  have hstack1 : (collectIfDue vm).stack = (l ++ [b]) ++ [a] := by
    rw [collectIfDue_stack, hst2]
  have hpop1 : (collectIfDue vm).pop =
      .ok (a, { collectIfDue vm with stack := l ++ [b] }) := by
    unfold VM.pop
    rw [hstack1]
    simp
  have hpop2 : ({ collectIfDue vm with stack := l ++ [b] } : VM).pop =
      .ok (b, { collectIfDue vm with stack := l }) := by
    unfold VM.pop
    simp
  have hlen : l.length < MAX_STACK := by
    rw [hst] at hcap
    simp only [List.length_append, List.length_cons, List.length_nil] at hcap
    omega
  have hpush : (allocate { collectIfDue vm with stack := l } (.pair a b)).2.push
      (allocate { collectIfDue vm with stack := l } (.pair a b)).1 =
      .ok { allocate { collectIfDue vm with stack := l } (.pair a b) |>.2 with
            stack := l ++ [(collectIfDue vm).nextId] } := by
    unfold VM.push allocate
    simp only
    rw [if_pos hlen]
  refine ⟨(collectIfDue vm).nextId,
    { collectIfDue vm with
      stack := l ++ [(collectIfDue vm).nextId],
      heap := ((collectIfDue vm).nextId,
        { marked := false, payload := .pair a b }) :: (collectIfDue vm).heap,
      numObjects := (collectIfDue vm).numObjects + 1,
      nextId := (collectIfDue vm).nextId + 1 }, ?_, rfl, rfl, rfl, ?_⟩
  · simp only [pushPair, hpop1, hpop2, hpush]
    rfl
  · simp [lookupObj]

/-! The instrumented mark: its heap agrees with markF and its work count is
bounded by the number of unmarked objects — each object is expanded at most
once per collection cycle. -/

theorem markFc_none {h : Heap} {i : Nat} (fuel : Nat)
    (hl : lookupObj h i = none) : markFc (fuel + 1) h i = (h, 0) := by
  simp [markFc, hl]

theorem markFc_marked {h : Heap} {i : Nat} {o : Object} (fuel : Nat)
    (hl : lookupObj h i = some o) (hm : o.marked = true) :
    markFc (fuel + 1) h i = (h, 0) := by
  simp [markFc, hl, hm]

theorem markFc_int {h : Heap} {i : Nat} {o : Object} {v : Int} (fuel : Nat)
    (hl : lookupObj h i = some o) (hm : o.marked = false) (hp : o.payload = .int v) :
    markFc (fuel + 1) h i = (setMarked h i, 1) := by
  simp [markFc, hl, hm, hp]

theorem markFc_pair {h : Heap} {i : Nat} {o : Object} {x y : Nat} (fuel : Nat)
    (hl : lookupObj h i = some o) (hm : o.marked = false) (hp : o.payload = .pair x y) :
    markFc (fuel + 1) h i =
      ((markFc fuel (markFc fuel (setMarked h i) x).1 y).1,
        1 + (markFc fuel (setMarked h i) x).2 +
          (markFc fuel (markFc fuel (setMarked h i) x).1 y).2) := by
  simp [markFc, hl, hm, hp]

theorem markFc_fst (fuel : Nat) :
    ∀ (h : Heap) (i : Nat), (markFc fuel h i).1 = markF fuel h i := by
  induction fuel with
  | zero => intro h i; rfl
  | succ fuel ih =>
    intro h i
    cases hl : lookupObj h i with
    | none => rw [markFc_none fuel hl, markF_none fuel hl]
    | some o =>
      cases hmo : o.marked with
      | true => rw [markFc_marked fuel hl hmo, markF_marked fuel hl hmo]
      | false =>
        cases hp : o.payload with
        | int v => rw [markFc_int fuel hl hmo hp, markF_int fuel hl hmo hp]
        | pair x y => rw [markFc_pair fuel hl hmo hp, markF_pair fuel hl hmo hp, ih, ih]

theorem markFc_count (fuel : Nat) :
    ∀ (h : Heap) (i : Nat),
      (markFc fuel h i).2 + unmarkedCount ((markFc fuel h i).1) ≤ unmarkedCount h := by
  induction fuel with
  | zero => intro h i; simp [markFc]
  | succ fuel ih =>
    intro h i
    cases hl : lookupObj h i with
    | none => rw [markFc_none fuel hl]; simp
    | some o =>
      cases hmo : o.marked with
      | true => rw [markFc_marked fuel hl hmo]; simp
      | false =>
        have hmB : markedB h i = false := by simp [markedB, hl, hmo]
        have hmem : memB h i = true := by simp [memB, hl]
        have hlt := unmarkedCount_setMarked_lt hmB hmem
        cases hp : o.payload with
        | int v =>
          rw [markFc_int fuel hl hmo hp]
          simp only
          omega
        | pair x y =>
          rw [markFc_pair fuel hl hmo hp]
          simp only
          have h1 := ih (setMarked h i) x
          have h2 := ih (markFc fuel (setMarked h i) x).1 y
          omega

theorem unmarkedCount_le_length (h : Heap) : unmarkedCount h ≤ h.length := by
  induction h with
  | nil => simp [unmarkedCount]
  | cons q rest ih =>
    obtain ⟨i, o⟩ := q
    simp only [unmarkedCount, List.length_cons]
    by_cases hm : o.marked <;> simp [hm] <;> omega

/-! Fields preserved by pop, and the allocation-iteration lemmas behind the
threshold schedule. -/

theorem pop_fields {vm vm' : VM} {v : Nat} (hok : vm.pop = .ok (v, vm')) :
    vm'.heap = vm.heap ∧ vm'.numObjects = vm.numObjects ∧
      vm'.maxObjects = vm.maxObjects ∧ vm'.nextId = vm.nextId ∧
      vm.stack = vm'.stack ++ [v] := by
  unfold VM.pop at hok
  cases hlast : vm.stack.getLast? with
  | none => rw [hlast] at hok; cases hok
  | some w =>
    rw [hlast] at hok
    injection hok with hok
    injection hok with h1 h2
    subst h1
    subst h2
    refine ⟨rfl, rfl, rfl, rfl, ?_⟩
    show vm.stack = vm.stack.dropLast ++ [w]
    cases hs : vm.stack with
    | nil => rw [hs] at hlast; cases hlast
    | cons z zs =>
      rw [hs] at hlast
      have hne : z :: zs ≠ [] := by simp
      rw [List.getLast?_eq_getLast (z :: zs) hne] at hlast
      injection hlast with hlast
      rw [← hlast]
      exact (List.dropLast_append_getLast hne).symm

theorem allocate_numObjects (vm : VM) (p : Payload) :
    (allocate vm p).2.numObjects = vm.numObjects + 1 := rfl

theorem allocate_maxObjects (vm : VM) (p : Payload) :
    (allocate vm p).2.maxObjects = vm.maxObjects := rfl

theorem newObject_of_ne {vm : VM} (h : vm.numObjects ≠ vm.maxObjects) (p : Payload) :
    newObject vm p = allocate vm p := by
  unfold newObject collectIfDue
  rw [if_neg h]

theorem newObject_of_eq {vm : VM} (h : vm.numObjects = vm.maxObjects) (p : Payload) :
    newObject vm p = allocate (VM.gc vm) p := by
  unfold newObject collectIfDue
  rw [if_pos h]

theorem allocIntNnoGC_fields :
    ∀ (k : Nat) (vm : VM), (allocIntNnoGC vm k).numObjects = vm.numObjects + k ∧
      (allocIntNnoGC vm k).maxObjects = vm.maxObjects := by
  intro k
  induction k with
  | zero => intro vm; exact ⟨rfl, rfl⟩
  | succ k ih =>
    intro vm
    simp only [allocIntNnoGC]
    obtain ⟨h1, h2⟩ := ih (allocate vm (.int 0)).2
    rw [h1, h2, allocate_numObjects, allocate_maxObjects]
    omega

/-- As long as the count never hits the threshold at an allocation entry,
the trigger check is inert. -/
theorem allocIntN_noGC :
    ∀ (k : Nat) (vm : VM), (∀ i, i < k → vm.numObjects + i ≠ vm.maxObjects) →
      allocIntN vm k = allocIntNnoGC vm k := by
  intro k
  induction k with
  | zero => intro vm h; rfl
  | succ k ih =>
    intro vm h
    simp only [allocIntN, allocIntNnoGC]
    have h0 : vm.numObjects ≠ vm.maxObjects := by
      have := h 0 (by omega)
      omega
    rw [newObject_of_ne h0]
    apply ih
    intro i hi
    rw [allocate_numObjects, allocate_maxObjects]
    have := h (i + 1) (by omega)
    omega

theorem allocIntN_succ :
    ∀ (k : Nat) (vm : VM), allocIntN vm (k + 1) = (newObject (allocIntN vm k) (.int 0)).2 := by
  intro k
  induction k with
  | zero => intro vm; rfl
  | succ k ih =>
    intro vm
    show allocIntN (newObject vm (.int 0)).2 (k + 1) = _
    rw [ih]
    rfl

/-- Doubling schedule, quiet half: after a collection leaving n live
objects (threshold 2n), the first n allocations trigger nothing. -/
theorem alloc_schedule_noGC {vm : VM} {n : Nat} (hnum : vm.numObjects = n)
    (hmax : vm.maxObjects = 2 * n) {k : Nat} (hk : k ≤ n) :
    allocIntN vm k = allocIntNnoGC vm k := by
  apply allocIntN_noGC
  intro i hi
  rw [hnum, hmax]
  omega

/-- Doubling schedule, firing half: the (n+1)-st allocation enters with
count 2n equal to the threshold and runs a collection first. -/
theorem alloc_schedule_fire {vm : VM} {n : Nat} (hnum : vm.numObjects = n)
    (hmax : vm.maxObjects = 2 * n) :
    allocIntN vm (n + 1) = (allocate (VM.gc (allocIntNnoGC vm n)) (.int 0)).2 := by
  rw [allocIntN_succ, alloc_schedule_noGC hnum hmax (le_refl n)]
  obtain ⟨h1, h2⟩ := allocIntNnoGC_fields n vm
  rw [newObject_of_eq]
  rw [h1, h2, hnum, hmax]
  omega

/-- From a state with the count above the threshold, no later allocation
ever triggers a collection. -/
theorem alloc_excess_noGC {vm : VM} (h : vm.maxObjects < vm.numObjects) (k : Nat) :
    allocIntN vm k = allocIntNnoGC vm k :=
  allocIntN_noGC k vm (fun i hi => by omega)

theorem alloc_excess_preserved {vm : VM} (h : vm.maxObjects < vm.numObjects) (k : Nat) :
    (allocIntNnoGC vm k).maxObjects < (allocIntNnoGC vm k).numObjects := by
  obtain ⟨h1, h2⟩ := allocIntNnoGC_fields k vm
  omega

/-! Agreement of the C and C++ variants on steps that satisfy okOp. -/

theorem collectIfDue_eq_cpp {vm : VM} (h : vm.numObjects ≤ vm.maxObjects) :
    collectIfDue vm = (if vm.maxObjects ≤ vm.numObjects then vm.gc else vm) := by
  unfold collectIfDue
  by_cases he : vm.numObjects = vm.maxObjects
  · rw [if_pos he, if_pos (by omega)]
  · rw [if_neg he, if_neg (by omega)]

theorem step_agree {vm : VM} {op : Op} (hok : okOp vm op = true) :
    stepC vm op = stepCpp PopOrder.leftFirst vm op := by
  cases op with
  | push_int v =>
    have hle : vm.numObjects ≤ vm.maxObjects := by
      simp only [okOp, decide_eq_true_eq] at hok
      exact hok
    simp only [stepC, stepCpp, pushInt, cppPushInt, newObject, cppInsert]
    rw [collectIfDue_eq_cpp hle]
  | push_pair =>
    have hlt : vm.numObjects < vm.maxObjects := by
      simp only [okOp, decide_eq_true_eq] at hok
      exact hok
    have hnone : collectIfDue vm = vm := by
      unfold collectIfDue
      rw [if_neg (by omega)]
    simp only [stepC, stepCpp, pushPair, cppPushPair, hnone]
    cases hpop1 : vm.pop with
    | error e => rfl
    | ok pr1 =>
      obtain ⟨hd, vm2⟩ := pr1
      dsimp only
      obtain ⟨hh2, hn2, hm2, -, -⟩ := pop_fields hpop1
      cases hpop2 : vm2.pop with
      | error e => rfl
      | ok pr2 =>
        obtain ⟨tl, vm3⟩ := pr2
        dsimp only
        obtain ⟨hh3, hn3, hm3, -, -⟩ := pop_fields hpop2
        have hcpp : cppInsert vm3 (pairPayload PopOrder.leftFirst hd tl) =
            allocate vm3 (.pair hd tl) := by
          unfold cppInsert pairPayload
          rw [if_neg (by rw [hn3, hn2, hm3, hm2]; omega)]
        rw [hcpp]
  | pop => rfl
  | collect => rfl
  | teardown => rfl

/-- The two implementations run identically, under left-to-right argument
evaluation of the C++ pair push, on any call sequence whose C run
satisfies okOp at every step. -/
theorem run_agree :
    ∀ (ops : List Op) (vm : VM), okRun vm ops = true →
      runC vm ops = runCpp PopOrder.leftFirst vm ops := by
  intro ops
  induction ops with
  | nil => intro vm h; rfl
  | cons op ops ih =>
    intro vm h
    simp only [okRun, Bool.and_eq_true] at h
    obtain ⟨hop, hrest⟩ := h
    simp only [runC, runCpp]
    rw [← step_agree hop]
    cases hstep : stepC vm op with
    | error e => rfl
    | ok vm' =>
      rw [hstep] at hrest
      exact ih vm' hrest

/-- A non-triggering pushPair in full: the C source pops a (topmost) then
b, makes a the head and b the tail, and links the pair over the unchanged
heap. -/
theorem pushPair_noTrigger {vm : VM} {l : List Nat} {a b : Nat}
    (hlt : vm.numObjects < vm.maxObjects)
    (hst : vm.stack = l ++ [b, a]) (hcap : vm.stack.length ≤ MAX_STACK) :
    pushPair vm = .ok (vm.nextId, pushPairResult vm l (.pair a b)) := by
  have hnone : collectIfDue vm = vm := by
    unfold collectIfDue
    rw [if_neg (by omega)]
  have hst2 : vm.stack = (l ++ [b]) ++ [a] := by
    rw [hst]
    simp
  have hpop1 : vm.pop = .ok (a, { vm with stack := l ++ [b] }) := by
    unfold VM.pop
    rw [hst2]
    simp
  have hpop2 : ({ vm with stack := l ++ [b] } : VM).pop =
      .ok (b, { vm with stack := l }) := by
    unfold VM.pop
    simp
  have hlen : l.length < MAX_STACK := by
    rw [hst] at hcap
    simp only [List.length_append, List.length_cons, List.length_nil] at hcap
    omega
  have hpush : (allocate { vm with stack := l } (.pair a b)).2.push
      (allocate { vm with stack := l } (.pair a b)).1 =
      .ok { allocate { vm with stack := l } (.pair a b) |>.2 with
            stack := l ++ [vm.nextId] } := by
    unfold VM.push allocate
    simp only
    rw [if_pos hlen]
  simp only [pushPair, hnone, hpop1, hpop2, hpush]
  rfl

/-- A non-triggering cppPushPair in full, for either legal evaluation
order: the popped roots are the same two, and the order decides which
becomes head and which tail. -/
theorem cppPushPair_noTrigger (ord : PopOrder) {vm : VM} {l : List Nat} {a b : Nat}
    (hlt : vm.numObjects < vm.maxObjects)
    (hst : vm.stack = l ++ [b, a]) (hcap : vm.stack.length ≤ MAX_STACK) :
    cppPushPair ord vm = .ok (vm.nextId, pushPairResult vm l (pairPayload ord a b)) := by
  have hst2 : vm.stack = (l ++ [b]) ++ [a] := by
    rw [hst]
    simp
  have hpop1 : vm.pop = .ok (a, { vm with stack := l ++ [b] }) := by
    unfold VM.pop
    rw [hst2]
    simp
  have hpop2 : ({ vm with stack := l ++ [b] } : VM).pop =
      .ok (b, { vm with stack := l }) := by
    unfold VM.pop
    simp
  have hlen : l.length < MAX_STACK := by
    rw [hst] at hcap
    simp only [List.length_append, List.length_cons, List.length_nil] at hcap
    omega
  have hcpp : cppInsert { vm with stack := l } (pairPayload ord a b) =
      allocate { vm with stack := l } (pairPayload ord a b) := by
    unfold cppInsert
    rw [if_neg (by simp only; omega)]
  have hpush : (allocate { vm with stack := l } (pairPayload ord a b)).2.push
      (allocate { vm with stack := l } (pairPayload ord a b)).1 =
      .ok { allocate { vm with stack := l } (pairPayload ord a b) |>.2 with
            stack := l ++ [vm.nextId] } := by
    unfold VM.push allocate
    simp only
    rw [if_pos hlen]
  simp only [cppPushPair, hpop1, hpop2, hcpp, hpush]
  rfl

/-! The specification claims. -/

/-- C1: every object transitively reachable from the references currently
on the root stack survives a collection cycle — gc leaves its heap entry
untouched and never reclaims it — and after pushing two integers as roots
and collecting, live_count() equals 2. -/
theorem claim1_reachable_roots_survive :
    (∀ (vm : VM) (i : Nat), AllUnmarked vm.heap → NodupKeys vm.heap →
      RootReachable vm i →
      memB (VM.gc vm).heap i = true ∧
        lookupObj (VM.gc vm).heap i = lookupObj vm.heap i) ∧
    (runC newVM [Op.push_int 1, Op.push_int 2, Op.collect]).map live_count = .ok 2 := by
  constructor
  · intro vm i hA hnd hR
    have hlook := gc_lookup_reachable vm hA hnd hR
    refine ⟨?_, hlook⟩
    obtain ⟨r, hr, hre⟩ := hR
    obtain ⟨p, hp⟩ := reaches_last hre
    obtain ⟨o, ho, -⟩ := payloadAt_some_elim hp
    rw [memB, hlook, ho]
    rfl
  · rfl

theorem claim1_witness :
    AllUnmarked vmTwoInts.heap ∧ NodupKeys vmTwoInts.heap ∧ RootReachable vmTwoInts 0 ∧
      memB (VM.gc vmTwoInts).heap 0 = true := by
  have hA : AllUnmarked vmTwoInts.heap := by
    unfold AllUnmarked vmTwoInts
    decide
  have hnd : NodupKeys vmTwoInts.heap := by
    unfold NodupKeys vmTwoInts
    decide
  have hR : RootReachable vmTwoInts 0 :=
    ⟨0, by decide, Reaches.refl 0 { marked := false, payload := .int 1 } rfl⟩
  exact ⟨hA, hnd, hR, (claim1_reachable_roots_survive.1 vmTwoInts 0 hA hnd hR).1⟩

/-- C2: an object with no path from the root stack is reclaimed by the
next collection, and afterwards the heap contains exactly the objects
transitively reachable from the roots; pushing and popping two integers
then collecting yields live_count() = 0. -/
theorem claim2_unreachable_reclaimed :
    (∀ (vm : VM) (i : Nat), AllUnmarked vm.heap → NodupKeys vm.heap →
      (memB (VM.gc vm).heap i = true ↔ memB vm.heap i = true ∧ RootReachable vm i)) ∧
    (runC newVM [Op.push_int 1, Op.push_int 2, Op.pop, Op.pop, Op.collect]).map live_count =
      .ok 0 :=
  ⟨fun vm i hA hnd => gc_memB vm hA hnd i, rfl⟩

theorem claim2_witness :
    AllUnmarked vmExcess.heap ∧ NodupKeys vmExcess.heap ∧
      memB (VM.gc vmExcess).heap 1 = false := by
  have hA : AllUnmarked vmExcess.heap := by
    unfold AllUnmarked vmExcess
    decide
  have hnd : NodupKeys vmExcess.heap := by
    unfold NodupKeys vmExcess
    decide
  refine ⟨hA, hnd, ?_⟩
  have hiff := claim2_unreachable_reclaimed.1 vmExcess 1 hA hnd
  cases hmb : memB (VM.gc vmExcess).heap 1 with
  | false => rfl
  | true =>
    obtain ⟨-, r, hr, -⟩ := hiff.1 hmb
    simp [vmExcess] at hr

/-- C3: mark terminates on every object graph — any fuel above the number
of unmarked objects computes the same fixed result — a call on an
already-marked object returns immediately, each collection expands every
object at most once (the work count is bounded by the unmarked-object
count), and the mutual-cycle state of test 4 and a rooted self-loop both
collect to the expected live counts. -/
theorem claim3_mark_terminates :
    (∀ (fuel : Nat) (h : Heap) (i : Nat), unmarkedCount h < fuel →
      markF fuel h i = mark h i) ∧
    (∀ (h : Heap) (i : Nat) (o : Object), lookupObj h i = some o → o.marked = true →
      mark h i = h) ∧
    (∀ (fuel : Nat) (h : Heap) (i : Nat),
      (markFc fuel h i).1 = markF fuel h i ∧ (markFc fuel h i).2 ≤ unmarkedCount h) ∧
    live_count (VM.gc vmCycle) = 4 ∧ live_count (VM.gc vmSelfLoop) = 1 := by
  refine ⟨?_, ?_, ?_, rfl, rfl⟩
  · intro fuel h i hf
    exact markF_fuel_congr fuel h i hf (Nat.lt_succ_self _)
  · intro h i o hl hm
    exact markF_marked _ hl hm
  · intro fuel h i
    refine ⟨markFc_fst fuel h i, ?_⟩
    have h1 := markFc_count fuel h i
    omega

theorem claim3_witness :
    unmarkedCount vmCycle.heap < 7 ∧ markF 7 vmCycle.heap 2 = mark vmCycle.heap 2 :=
  ⟨by decide, claim3_mark_terminates.1 7 vmCycle.heap 2 (by decide)⟩

/-- C4 counterexample: the claim's trigger condition (collect exactly when
liveCount >= threshold) is false for collector.c.  The excessTrace calls
leave the VM at vmExcess with liveCount 1 above threshold 0; the next
allocation runs no collection — the unrooted object survives and
live_count becomes 2 — whereas a collection-first allocation would leave
live_count 1. -/
theorem claim4_counterexample :
    runC newVM excessTrace = .ok vmExcess ∧
    vmExcess.maxObjects ≤ vmExcess.numObjects ∧
    (pushInt vmExcess 3).map (fun r => live_count r.2) = .ok 2 ∧
    (pushInt (VM.gc vmExcess) 3).map (fun r => live_count r.2) = .ok 1 :=
  ⟨rfl, by decide, rfl, rfl⟩

/-- C4 (amended): in collector.c an allocation runs a full collection
before constructing and linking the new object exactly when liveCount
equals the threshold at entry; every collection sets the threshold to
twice the post-sweep live count; hence after a collection leaving n live
objects the next automatic collection happens on the allocation performed
once the live count reaches 2n, and never earlier. -/
theorem claim4_trigger_equality_and_schedule :
    (∀ (vm : VM) (p : Payload), vm.numObjects = vm.maxObjects →
      newObject vm p = allocate (VM.gc vm) p) ∧
    (∀ (vm : VM) (p : Payload), vm.numObjects ≠ vm.maxObjects →
      newObject vm p = allocate vm p) ∧
    (∀ vm : VM, (VM.gc vm).maxObjects = (VM.gc vm).numObjects * 2) ∧
    (∀ (vm : VM) (n k : Nat), vm.numObjects = n → vm.maxObjects = 2 * n → k ≤ n →
      allocIntN vm k = allocIntNnoGC vm k) ∧
    (∀ (vm : VM) (n : Nat), vm.numObjects = n → vm.maxObjects = 2 * n →
      allocIntN vm (n + 1) = (allocate (VM.gc (allocIntNnoGC vm n)) (.int 0)).2) :=
  ⟨fun _ p h => newObject_of_eq h p, fun _ p h => newObject_of_ne h p,
    gc_maxObjects, fun _ _ _ h1 h2 hk => alloc_schedule_noGC h1 h2 hk,
    fun _ _ h1 h2 => alloc_schedule_fire h1 h2⟩

theorem claim4_witness :
    vmThreshold.numObjects = 1 ∧ vmThreshold.maxObjects = 2 * 1 ∧
      allocIntN vmThreshold 1 = allocIntNnoGC vmThreshold 1 ∧
      allocIntN vmThreshold 2 = (allocate (VM.gc (allocIntNnoGC vmThreshold 1)) (.int 0)).2 :=
  ⟨rfl, rfl,
    claim4_trigger_equality_and_schedule.2.2.2.1 vmThreshold 1 1 rfl rfl (le_refl 1),
    claim4_trigger_equality_and_schedule.2.2.2.2 vmThreshold 1 rfl rfl⟩

/-- C5 counterexample: the C and C++ sources are not observably
equivalent.  On divergeTrace the C implementation finishes with
live_count 2 while the C++ implementation finishes with live_count 1
under both legal evaluation orders of its pair push, because the C
trigger is an equality test while the C++ trigger is >=. -/
theorem claim5_counterexample :
    (runC newVM divergeTrace).map live_count = .ok 2 ∧
    (runCpp PopOrder.leftFirst newVM divergeTrace).map live_count = .ok 1 ∧
    (runCpp PopOrder.rightFirst newVM divergeTrace).map live_count = .ok 1 ∧
    (runC newVM divergeTrace).map live_count ≠
      (runCpp PopOrder.leftFirst newVM divergeTrace).map live_count ∧
    (runC newVM divergeTrace).map live_count ≠
      (runCpp PopOrder.rightFirst newVM divergeTrace).map live_count := by
  refine ⟨rfl, rfl, rfl, ?_, ?_⟩
  · intro hcon
    rw [show (runC newVM divergeTrace).map live_count = Except.ok 2 from rfl,
      show (runCpp PopOrder.leftFirst newVM divergeTrace).map live_count = Except.ok 1 from
        rfl] at hcon
    injection hcon with h
    exact absurd h (by decide)
  · intro hcon
    rw [show (runC newVM divergeTrace).map live_count = Except.ok 2 from rfl,
      show (runCpp PopOrder.rightFirst newVM divergeTrace).map live_count = Except.ok 1 from
        rfl] at hcon
    injection hcon with h
    exact absurd h (by decide)

/-- C5 (amended): on every call sequence along which each push_int starts
from liveCount ≤ threshold and each push_pair from liveCount < threshold
(okRun), the C source and the C++ source under left-to-right evaluation
of the pair push's two operand pops run identically — same live counts,
surviving object graph including pair orientation, trigger points and
failure behavior.  The C++ source leaves that evaluation order
unspecified: under the other legal order a non-triggering pair push
yields the same state except that head and tail are swapped relative to
the C source.  Outside the okRun regime the implementations diverge (C
collects exactly on liveCount = threshold, C++ on ≥, and C++ pops pair
operands before its trigger check); divergeTrace violates okRun. -/
theorem claim5_agreement :
    (∀ (ops : List Op) (vm : VM), okRun vm ops = true →
      runC vm ops = runCpp PopOrder.leftFirst vm ops) ∧
    (∀ (vm : VM) (l : List Nat) (a b : Nat), vm.numObjects < vm.maxObjects →
      vm.stack = l ++ [b, a] → vm.stack.length ≤ MAX_STACK →
      pushPair vm = .ok (vm.nextId, pushPairResult vm l (.pair a b)) ∧
      cppPushPair PopOrder.leftFirst vm =
        .ok (vm.nextId, pushPairResult vm l (.pair a b)) ∧
      cppPushPair PopOrder.rightFirst vm =
        .ok (vm.nextId, pushPairResult vm l (.pair b a))) ∧
    okRun newVM divergeTrace = false := by
  refine ⟨fun ops vm h => run_agree ops vm h, ?_, rfl⟩
  intro vm l a b hlt hst hcap
  exact ⟨pushPair_noTrigger hlt hst hcap,
    cppPushPair_noTrigger PopOrder.leftFirst hlt hst hcap,
    cppPushPair_noTrigger PopOrder.rightFirst hlt hst hcap⟩

theorem claim5_witness :
    (okRun newVM [Op.push_int 1, Op.push_int 2, Op.collect] = true ∧
      runC newVM [Op.push_int 1, Op.push_int 2, Op.collect] =
        runCpp PopOrder.leftFirst newVM [Op.push_int 1, Op.push_int 2, Op.collect]) ∧
    (vmTwoInts.numObjects < vmTwoInts.maxObjects ∧
      vmTwoInts.stack = [] ++ [0, 1] ∧ vmTwoInts.stack.length ≤ MAX_STACK ∧
      cppPushPair PopOrder.rightFirst vmTwoInts =
        .ok (vmTwoInts.nextId, pushPairResult vmTwoInts [] (.pair 0 1))) := by
  refine ⟨⟨rfl, claim5_agreement.1 [Op.push_int 1, Op.push_int 2, Op.collect] newVM rfl⟩,
    by decide, rfl, by decide, ?_⟩
  exact (claim5_agreement.2.1 vmTwoInts [] 1 0 (by decide) rfl (by decide)).2.2

/-- C6: allocation constructs objects with the mark bit false, sweep clears
the flag of every survivor — so outside an active collection cycle every
heap object is unmarked — and a second collection run immediately with no
intervening mutation is the identity, so live_count() is unchanged. -/
theorem claim6_mark_bit_steady_state :
    (∀ (vm : VM) (p : Payload),
      lookupObj ((newObject vm p).2).heap (newObject vm p).1 =
        some { marked := false, payload := p }) ∧
    (∀ vm : VM, AllUnmarked (VM.gc vm).heap) ∧
    (∀ vm : VM, AllUnmarked vm.heap → NodupKeys vm.heap →
      VM.gc (VM.gc vm) = VM.gc vm) := by
  refine ⟨?_, allUnmarked_gc, fun vm hA hnd => gc_gc vm hA hnd⟩
  intro vm p
  simp [newObject, allocate, lookupObj]

theorem claim6_witness :
    AllUnmarked vmTwoInts.heap ∧ NodupKeys vmTwoInts.heap ∧
      VM.gc (VM.gc vmTwoInts) = VM.gc vmTwoInts := by
  have hA : AllUnmarked vmTwoInts.heap := by
    unfold AllUnmarked vmTwoInts
    decide
  have hnd : NodupKeys vmTwoInts.heap := by
    unfold NodupKeys vmTwoInts
    decide
  exact ⟨hA, hnd, claim6_mark_bit_steady_state.2.2 vmTwoInts hA hnd⟩

/-- C7: every Pair in the heap references currently-present heap objects
(the WF invariant), the invariant holds initially and is preserved by
every external operation, and pushPair runs its trigger check before
popping its operands, so a collection triggered by that allocation still
sees both operands on the root stack and keeps them. -/
theorem claim7_pair_references_live :
    (∀ vm : VM, WF vm → ∀ p ∈ vm.heap, ∀ x y,
      (p : Nat × Object).2.payload = .pair x y →
      memB vm.heap x = true ∧ memB vm.heap y = true) ∧
    WF newVM ∧
    (∀ vm : VM, WF vm → WF (VM.gc vm)) ∧
    (∀ (vm : VM) (v : Int) (id : Nat) (vm' : VM), WF vm →
      pushInt vm v = .ok (id, vm') → WF vm') ∧
    (∀ (vm : VM) (id : Nat) (vm' : VM), WF vm →
      pushPair vm = .ok (id, vm') → WF vm') ∧
    (∀ (vm : VM) (v : Nat) (vm' : VM), WF vm →
      vm.pop = .ok (v, vm') → WF vm') ∧
    (∀ (vm : VM) (r : Nat), WF vm → r ∈ vm.stack →
      memB (collectIfDue vm).heap r = true) :=
  ⟨fun _ hwf => hwf.pairMem, wf_newVM, fun _ hwf => wf_gc hwf,
    fun _ _ _ _ hwf hok => wf_pushInt hwf hok,
    fun _ _ _ hwf hok => wf_pushPair hwf hok,
    fun _ _ _ hwf hok => (wf_pop hwf hok).1,
    fun _ _ hwf hr => collectIfDue_stackMem hwf hr⟩

theorem claim7_witness :
    WF vmTwoInts ∧ 0 ∈ vmTwoInts.stack ∧
      memB (collectIfDue vmTwoInts).heap 0 = true := by
  have hwf : WF vmTwoInts := by
    refine ⟨?_, ?_, by decide, by decide, ?_, by decide, by decide⟩
    · unfold AllUnmarked vmTwoInts
      decide
    · unfold NodupKeys vmTwoInts
      decide
    · intro p hp x y hxy
      simp only [vmTwoInts, List.mem_cons, List.not_mem_nil, or_false] at hp
      rcases hp with h | h <;> rw [h] at hxy <;> cases hxy
  exact ⟨hwf, by decide,
    claim7_pair_references_live.2.2.2.2.2.2 vmTwoInts 0 hwf (by decide)⟩

/-- C8: push fails with the overflow diagnostic exactly when the root
stack already holds MAX_STACK = 256 references, pop fails with the
underflow diagnostic exactly when the stack is empty, a successful push
only appends to the stack, and a successful pop removes the last root
while leaving heap membership, live count and the allocation counter
unmodified; failures are modelled as error values with no successor
state, matching the C exit(1) that terminates before any mutation. -/
theorem claim8_push_pop_failures :
    MAX_STACK = 256 ∧
    (∀ (vm : VM) (v : Nat), vm.stack.length ≤ MAX_STACK →
      (vm.push v = .error .RootOverflow ↔ vm.stack.length = MAX_STACK)) ∧
    (∀ (vm : VM) (v : Nat), vm.stack.length < MAX_STACK →
      vm.push v = .ok { vm with stack := vm.stack ++ [v] }) ∧
    (∀ vm : VM, vm.pop = .error .RootUnderflow ↔ vm.stack = []) ∧
    (∀ (vm : VM) (v : Nat) (vm' : VM), vm.pop = .ok (v, vm') →
      vm'.heap = vm.heap ∧ vm'.numObjects = vm.numObjects ∧
        vm'.maxObjects = vm.maxObjects ∧ vm'.nextId = vm.nextId ∧
        vm.stack = vm'.stack ++ [v]) := by
  refine ⟨rfl, ?_, ?_, ?_, fun vm v vm' hok => pop_fields hok⟩
  · intro vm v hle
    unfold VM.push
    by_cases hlt : vm.stack.length < MAX_STACK
    · rw [if_pos hlt]
      constructor
      · intro h
        cases h
      · intro h
        omega
    · rw [if_neg hlt]
      constructor
      · intro h
        omega
      · intro h
        rfl
  · intro vm v hlt
    unfold VM.push
    rw [if_pos hlt]
  · intro vm
    unfold VM.pop
    cases hlast : vm.stack.getLast? with
    | none =>
      simp only [List.getLast?_eq_none_iff] at hlast
      simp [hlast]
    | some w =>
      constructor
      · intro h
        cases h
      · intro h
        rw [h] at hlast
        cases hlast

theorem claim8_witness :
    ({ newVM with stack := List.replicate 256 0 } : VM).stack.length ≤ MAX_STACK ∧
      (({ newVM with stack := List.replicate 256 0 } : VM).push 7 = .error .RootOverflow ↔
        ({ newVM with stack := List.replicate 256 0 } : VM).stack.length = MAX_STACK) ∧
      (newVM.pop = .error .RootUnderflow ↔ newVM.stack = []) := by
  have hlen : ({ newVM with stack := List.replicate 256 0 } : VM).stack.length ≤ MAX_STACK := by
    show (List.replicate 256 0).length ≤ MAX_STACK
    rw [List.length_replicate]
    decide
  exact ⟨hlen, claim8_push_pop_failures.2.1 _ 7 hlen,
    claim8_push_pop_failures.2.2.2.1 newVM⟩

/-- C9: pushPair removes exactly the top two roots in one fixed order —
the first-popped, topmost root becomes the pair's head, the second-popped
becomes the tail — then pushes the new pair as the new top root and
returns it. -/
theorem claim9_pushPair_order :
    ∀ (vm : VM) (l : List Nat) (a b : Nat), vm.stack = l ++ [b, a] →
      vm.stack.length ≤ MAX_STACK →
      ∃ id vm', pushPair vm = .ok (id, vm') ∧
        id = (collectIfDue vm).nextId ∧
        vm'.stack = l ++ [id] ∧
        lookupObj vm'.heap id = some { marked := false, payload := .pair a b } := by
  intro vm l a b hst hcap
  obtain ⟨id, vm', h1, h2, h3, -, h5⟩ := pushPair_spec hst hcap
  exact ⟨id, vm', h1, h2, h3, h5⟩

theorem claim9_witness :
    vmTwoInts.stack = [] ++ [0, 1] ∧ vmTwoInts.stack.length ≤ MAX_STACK ∧
      ∃ id vm', pushPair vmTwoInts = .ok (id, vm') ∧
        id = (collectIfDue vmTwoInts).nextId ∧
        vm'.stack = [] ++ [id] ∧
        lookupObj vm'.heap id = some { marked := false, payload := .pair 1 0 } :=
  ⟨rfl, by decide, claim9_pushPair_order vmTwoInts [] 1 0 rfl (by decide)⟩

/-- C10: in collector.c an allocation triggers a collection only when
numObjects is exactly equal to maxObjects at entry; the state vmExcess
with numObjects above maxObjects is reachable (excessTrace, after a
collection that left zero live objects); from any such state no chain of
allocations ever triggers a collection, and the excess persists, until an
explicit gc resets maxObjects to twice the live count. -/
theorem claim10_equality_trigger :
    (∀ (vm : VM) (p : Payload), vm.numObjects ≠ vm.maxObjects →
      newObject vm p = allocate vm p) ∧
    (∀ (vm : VM) (p : Payload), vm.numObjects = vm.maxObjects →
      newObject vm p = allocate (VM.gc vm) p) ∧
    runC newVM excessTrace = .ok vmExcess ∧
    vmExcess.maxObjects < vmExcess.numObjects ∧
    (∀ (vm : VM) (k : Nat), vm.maxObjects < vm.numObjects →
      allocIntN vm k = allocIntNnoGC vm k ∧
        (allocIntNnoGC vm k).maxObjects < (allocIntNnoGC vm k).numObjects) ∧
    (∀ vm : VM, (VM.gc vm).maxObjects = (VM.gc vm).numObjects * 2) :=
  ⟨fun _ p h => newObject_of_ne h p, fun _ p h => newObject_of_eq h p,
    rfl, by decide,
    fun _ k h => ⟨alloc_excess_noGC h k, alloc_excess_preserved h k⟩,
    gc_maxObjects⟩

theorem claim10_witness :
    vmExcess.maxObjects < vmExcess.numObjects ∧
      allocIntN vmExcess 3 = allocIntNnoGC vmExcess 3 :=
  ⟨by decide, (claim10_equality_trigger.2.2.2.2.1 vmExcess 3 (by decide)).1⟩

end GCModel
